import Mathlib

set_option maxHeartbeats 1000000
set_option synthInstance.maxHeartbeats 200000

/-!
Verification development for the jlou JSON-RPC-over-UDP toolkit.

Texts are modelled as lists of characters; byte lengths are measured with
the UTF-8 size of each character, matching the byte counts used by the
Rust code. The external JSON library (nojson) is an out-of-scope
collaborator; its parse and serialize operations are modelled from the
spec as an executable parser and printers over an inductive JSON value
type. Everything else is translated directly from the repository sources
(src/command_call.rs, src/command_echo_server.rs, src/utils.rs).
-/

namespace Jlou

abbrev Txt := List Char

def nlChar : Char := Char.ofNat 10

def crChar : Char := Char.ofNat 13

def tabChar : Char := Char.ofNat 9

def quChar : Char := Char.ofNat 34

def bsChar : Char := Char.ofNat 92

def lbChar : Char := Char.ofNat 123

def rbChar : Char := Char.ofNat 125

/-- Byte length of a text, as the Rust code measures Vec of u8 lengths. -/
def utf8Len : Txt → Nat
  | [] => 0
  | c :: r => c.utf8Size + utf8Len r

/-- Splitting a text at every newline byte, keeping empty segments. -/
def splitNl : Txt → List Txt
  | [] => [[]]
  | c :: r =>
    if c = nlChar then [] :: splitNl r
    else
      match splitNl r with
      | [] => [[c]]
      | p :: ps => (c :: p) :: ps

/-- Entries currently held by a packing buffer: none when the buffer is
empty, otherwise its newline-separated segments. -/
def bufEntries (buf : Txt) : List Txt := if buf = [] then [] else splitNl buf

/-- Removal of one trailing carriage return, as Rust str lines does. -/
def stripCr (l : Txt) : Txt := if l.getLastD ' ' = crChar then l.dropLast else l

/-- Dropping of the final empty segment produced by a trailing newline,
as Rust str lines does. -/
def linesCore : List Txt → List Txt
  | [] => []
  | [l] => if l = [] then [] else [l]
  | l :: l2 :: r => l :: linesCore (l2 :: r)

/-- Model of Rust str lines: split at newlines, drop the final empty
segment, strip one trailing carriage return from each line. -/
def rustLines (t : Txt) : List Txt := (linesCore (splitNl t)).map stripCr

/-- Kinds of JSON values, mirroring nojson JsonValueKind. -/
inductive JKind where
  | null
  | boolean
  | integer
  | float
  | string
  | array
  | object
  deriving DecidableEq

/-- Modelled from the spec: the value tree produced by the external JSON
library black box. Integer literals are unbounded (nojson keeps raw
text); float literals are kept as raw text and never inspected. -/
inductive Json where
  | null
  | bool (b : Bool)
  | int (n : Int)
  | float (raw : Txt)
  | str (s : Txt)
  | arr (elems : List Json)
  | obj (members : List (Txt × Json))

def Json.kind : Json → JKind
  | .null => .null
  | .bool _ => .boolean
  | .int _ => .integer
  | .float _ => .float
  | .str _ => .string
  | .arr _ => .array
  | .obj _ => .object

def keyJsonrpc : Txt := "jsonrpc".data

def keyId : Txt := "id".data

def keyMethod : Txt := "method".data

def keyParams : Txt := "params".data

def keyError : Txt := "error".data

def keyCode : Txt := "code".data

def keyMessage : Txt := "message".data

def msgBatch : String := "batch requests are not supported"

def msgNotObject : String := "value is not an object"

def msgNotString : String := "value is not a string"

def msgVersion : String := "jsonrpc version must be 2.0"

def msgIdType : String := "id must be an integer or string"

def msgMethodType : String := "method must be a string"

def msgParamsType : String := "params must be an object or array"

def msgJsonrpcRequired : String := "jsonrpc field is required"

def msgMethodRequired : String := "method field is required"

def msgParse : String := "json parse error"

def msgOversize : String := "response size exceeds maximum UDP packet size"

def msgTooBig : String := "request size exceeds buf-size"

def msgShortSend : String := "failed to send complete response"

def msgIdOverflow : String := "id integer exceeds the i64 range"

def msgBufZero : String := "buf-size must be greater than 0"

def msgBufMax : String := "buf-size must be at most the maximum UDP packet size"

def MAX_UDP_PACKET : Nat := 65507

/-- Member scan of utils validate_json_rpc_request: one pass over the
object members, with the three mutable locals passed explicitly. -/
def scanU : List (Txt × Json) → Bool → Bool → Option Json →
    Except String (Bool × Bool × Option Json)
  | [], hj, hm, id => .ok (hj, hm, id)
  | (n, v) :: rest, hj, hm, id =>
    if n = keyJsonrpc then
      match v with
      | .str s => if s = "2.0".data then scanU rest true hm id else .error msgVersion
      | _ => .error msgNotString
    else if n = keyId then
      if v.kind = .integer ∨ v.kind = .string then scanU rest hj hm (some v)
      else .error msgIdType
    else if n = keyMethod then
      if v.kind = .string then scanU rest hj true id else .error msgMethodType
    else if n = keyParams then
      if v.kind = .object ∨ v.kind = .array then scanU rest hj hm id
      else .error msgParamsType
    else scanU rest hj hm id

/-- Translation of utils::validate_json_rpc_request from src/utils.rs. -/
def validate_json_rpc_request (value : Json) : Except String (Option Json) :=
  if value.kind = .array then .error msgBatch
  else
    match value with
    | .obj ms =>
      match scanU ms false false none with
      | .error e => .error e
      | .ok (hj, hm, id) =>
        if hj = false then .error msgJsonrpcRequired
        else if hm = false then .error msgMethodRequired
        else .ok id
    | _ => .error msgNotObject

/-- Member scan of the echo server parse_request; its body is the same
as the utils scan, translated separately because the Rust source holds a
separate textual copy. -/
def scanS : List (Txt × Json) → Bool → Bool → Option Json →
    Except String (Bool × Bool × Option Json)
  | [], hj, hm, id => .ok (hj, hm, id)
  | (n, v) :: rest, hj, hm, id =>
    if n = keyJsonrpc then
      match v with
      | .str s => if s = "2.0".data then scanS rest true hm id else .error msgVersion
      | _ => .error msgNotString
    else if n = keyId then
      if v.kind = .integer ∨ v.kind = .string then scanS rest hj hm (some v)
      else .error msgIdType
    else if n = keyMethod then
      if v.kind = .string then scanS rest hj true id else .error msgMethodType
    else if n = keyParams then
      if v.kind = .object ∨ v.kind = .array then scanS rest hj hm id
      else .error msgParamsType
    else scanS rest hj hm id

/-- Translation of parse_request from src/command_echo_server.rs. -/
def parse_request (value : Json) : Except String (Option Json) :=
  if value.kind = .array then .error msgBatch
  else
    match value with
    | .obj ms =>
      match scanS ms false false none with
      | .error e => .error e
      | .ok (hj, hm, id) =>
        if hj = false then .error msgJsonrpcRequired
        else if hm = false then .error msgMethodRequired
        else .ok id
    | _ => .error msgNotObject

/-- Correlation id of the client, mirroring the RequestId enum of
src/command_call.rs. -/
inductive RequestId where
  | number (n : Int)
  | string (s : Txt)
  deriving DecidableEq

def i64Min : Int := -(2 ^ 63)

def i64Max : Int := 2 ^ 63 - 1

/-- Conversion of an unbounded JSON integer into a 64-bit signed
integer, mirroring the fallible try_into call of the client. -/
def intToI64 (n : Int) : Except String Int :=
  if i64Min ≤ n ∧ n ≤ i64Max then .ok n else .error msgIdOverflow

/-- Member scan of the client validator: same shape as the other two,
except that an integer id is converted to i64 and a string id is
decoded, producing a RequestId. -/
def scanC : List (Txt × Json) → Bool → Bool → Option RequestId →
    Except String (Bool × Bool × Option RequestId)
  | [], hj, hm, id => .ok (hj, hm, id)
  | (n, v) :: rest, hj, hm, id =>
    if n = keyJsonrpc then
      match v with
      | .str s => if s = "2.0".data then scanC rest true hm id else .error msgVersion
      | _ => .error msgNotString
    else if n = keyId then
      match v with
      | .int k =>
        match intToI64 k with
        | .error e => .error e
        | .ok k64 => scanC rest hj hm (some (.number k64))
      | .str s => scanC rest hj hm (some (.string s))
      | _ => .error msgIdType
    else if n = keyMethod then
      if v.kind = .string then scanC rest hj true id else .error msgMethodType
    else if n = keyParams then
      if v.kind = .object ∨ v.kind = .array then scanC rest hj hm id
      else .error msgParamsType
    else scanC rest hj hm id

/-- Translation of Request::validate_request_and_parse_id from
src/command_call.rs. -/
def validate_request_and_parse_id (value : Json) : Except String (Option RequestId) :=
  if value.kind = .array then .error msgBatch
  else
    match value with
    | .obj ms =>
      match scanC ms false false none with
      | .error e => .error e
      | .ok (hj, hm, id) =>
        if hj = false then .error msgJsonrpcRequired
        else if hm = false then .error msgMethodRequired
        else .ok id
    | _ => .error msgNotObject

/-- Membership test written from the words of claim C3: a member is
acceptable when a jsonrpc member is exactly the string 2.0, an id member
is an integer or a string, a method member is a string, a params member
is an object or an array, and any other member name is ignored. -/
def memberOkB (m : Txt × Json) : Bool :=
  if m.1 = keyJsonrpc then
    match m.2 with
    | .str s => decide (s = "2.0".data)
    | _ => false
  else if m.1 = keyId then
    decide (m.2.kind = .integer) || decide (m.2.kind = .string)
  else if m.1 = keyMethod then decide (m.2.kind = .string)
  else if m.1 = keyParams then
    decide (m.2.kind = .object) || decide (m.2.kind = .array)
  else true

def hasKey (k : Txt) (ms : List (Txt × Json)) : Bool :=
  ms.any (fun m => decide (m.1 = k))

/-- Validity predicate written from the words of claim C3, to be
compared with the source-translated validators. -/
def specValidRequest : Json → Bool
  | .obj ms => ms.all memberOkB && hasKey keyJsonrpc ms && hasKey keyMethod ms
  | _ => false

/-- Final value of the mutable id local after the scan. -/
def idFold (a : Option Json) : List (Txt × Json) → Option Json
  | [] => a
  | m :: r => idFold (if m.1 = keyId then some m.2 else a) r

/-! Modelled from the spec: the external JSON library parse black box,
as an executable recursive-descent parser for a JSON subset (no float
literals, no escape sequences inside strings; string characters are the
printable characters other than the quote and the backslash). All
concrete inputs used below stay inside this subset. -/

def isWsChar (c : Char) : Bool := c == ' ' || c == tabChar || c == nlChar || c == crChar

def skipWs (t : Txt) : Txt := t.dropWhile isWsChar

def isDigitChar (c : Char) : Bool := 48 ≤ c.toNat && c.toNat ≤ 57

def strOkChar (c : Char) : Bool := c != quChar && c != bsChar && 32 ≤ c.toNat

/-- Body of a JSON string after its opening quote. -/
def parseStringBody (t : Txt) : Option (Txt × Txt) :=
  match t.dropWhile strOkChar with
  | c :: r => if c = quChar then some (t.takeWhile strOkChar, r) else none
  | [] => none

def digitsToNat (ds : Txt) : Nat := ds.foldl (fun a c => a * 10 + (c.toNat - 48)) 0

/-- Decimal integer literal; float syntax is not part of the modelled
subset and is rejected. -/
def parseNumberCore (t : Txt) : Option (Int × Txt) :=
  let neg : Bool := match t with | c :: _ => c = '-' | [] => false
  let t1 : Txt := if neg then t.tail else t
  let ds := t1.takeWhile isDigitChar
  let rest := t1.dropWhile isDigitChar
  if ds = [] then none
  else if 1 < ds.length ∧ ds.headD '0' = '0' then none
  else
    match rest with
    | c :: _ =>
      if c = '.' ∨ c = 'e' ∨ c = 'E' then none
      else some (if neg then -(digitsToNat ds : Int) else (digitsToNat ds : Int), rest)
    | [] => some (if neg then -(digitsToNat ds : Int) else (digitsToNat ds : Int), rest)

def parseNumber (t : Txt) : Option (Json × Txt) :=
  (parseNumberCore t).map fun p => (.int p.1, p.2)

/-- Quoted string token, after whitespace. -/
def parseQuoted (t : Txt) : Option (Txt × Txt) :=
  match skipWs t with
  | c :: r => if c = quChar then parseStringBody r else none
  | [] => none

/-- Colon separator token, after whitespace. -/
def expectColon (t : Txt) : Option Txt :=
  match skipWs t with
  | c :: r => if c = ':' then some r else none
  | [] => none

mutual

def parseVal : Nat → Txt → Option (Json × Txt)
  | 0, _ => none
  | fuel + 1, t =>
    match skipWs t with
    | [] => none
    | c :: r =>
      if c = quChar then (parseStringBody r).map fun p => (.str p.1, p.2)
      else if c = lbChar then
        match skipWs r with
        | c2 :: r2 =>
          if c2 = rbChar then some (.obj [], r2)
          else (parseMembers fuel r).map fun p => (.obj p.1, p.2)
        | [] => none
      else if c = '[' then
        match skipWs r with
        | c2 :: r2 =>
          if c2 = ']' then some (.arr [], r2)
          else (parseElems fuel r).map fun p => (.arr p.1, p.2)
        | [] => none
      else if c = 'n' then
        if r.take 3 = "ull".data then some (.null, r.drop 3) else none
      else if c = 't' then
        if r.take 3 = "rue".data then some (.bool true, r.drop 3) else none
      else if c = 'f' then
        if r.take 4 = "alse".data then some (.bool false, r.drop 4) else none
      else parseNumber (c :: r)

/-- Comma-separated values after an opening bracket, up to the closing
bracket. -/
def parseElems : Nat → Txt → Option (List Json × Txt)
  | 0, _ => none
  | fuel + 1, t =>
    (parseVal fuel t).bind fun jr =>
      match skipWs jr.2 with
      | c :: r2 =>
        if c = ',' then (parseElems fuel r2).map fun p => (jr.1 :: p.1, p.2)
        else if c = ']' then some ([jr.1], r2)
        else none
      | [] => none

/-- Comma-separated members after an opening brace, up to the closing
brace. -/
def parseMembers : Nat → Txt → Option (List (Txt × Json) × Txt)
  | 0, _ => none
  | fuel + 1, t =>
    (parseQuoted t).bind fun nr =>
      (expectColon nr.2).bind fun r3 =>
        (parseVal fuel r3).bind fun vr =>
          match skipWs vr.2 with
          | c3 :: r5 =>
            if c3 = ',' then
              (parseMembers fuel r5).map fun p => ((nr.1, vr.1) :: p.1, p.2)
            else if c3 = rbChar then some ([(nr.1, vr.1)], r5)
            else none
          | [] => none

end

/-- Modelled from the spec: parse of one full text by the external JSON
library, requiring the whole text to be consumed. -/
def parseJson (t : Txt) : Option Json :=
  match parseVal (t.length + 1) t with
  | some (j, r) => if skipWs r = [] then some j else none
  | none => none

def digitChar (d : Nat) : Char := Char.ofNat (48 + d)

/-- Decimal digits of a natural number, most significant first, with
explicit fuel. -/
def natToDigitsCore : Nat → Nat → Txt → Txt
  | 0, _, acc => acc
  | fuel + 1, n, acc =>
    if n < 10 then digitChar (n % 10) :: acc
    else natToDigitsCore fuel (n / 10) (digitChar (n % 10) :: acc)

def natToTxt (n : Nat) : Txt := natToDigitsCore (n + 1) n []

/-- Modelled from the spec: decimal rendering of an i64, as the external
JSON library serializes an integer value. -/
def intToTxt (n : Int) : Txt :=
  if n < 0 then '-' :: natToTxt n.natAbs else natToTxt n.natAbs

/-- Modelled from the spec: the raw text the external JSON library
writes for an id value (the validated ids are integers or strings; the
modelled string subset needs no escaping). -/
def encodeId : Json → Txt
  | .int n => intToTxt n
  | .str s => quChar :: (s ++ [quChar])
  | _ => []

def echoHead : Txt := "\x7b\"jsonrpc\":\"2.0\",\"id\":".data

def echoMid : Txt := ",\"result\":".data

/-- Response text the echo server builds for a validated request line:
the nojson object builder of src/command_echo_server.rs writes the
jsonrpc member, the id member, then the result member holding the
original request text verbatim. -/
def echoText (idv : Json) (line : Txt) : Txt :=
  echoHead ++ encodeId idv ++ echoMid ++ line ++ [rbChar]

/-- Error reply value built by reply_err in src/command_echo_server.rs:
jsonrpc 2.0, a null id, and an error object with a code and a message. -/
def errReplyJson (code : Int) (msg : String) : Json :=
  .obj [(keyJsonrpc, .str ("2.0".data)), (keyId, .null),
        (keyError, .obj [(keyCode, .int code), (keyMessage, .str msg.data)])]

/-- Action the echo server takes for one line of a received datagram. -/
inductive LineAct where
  | reply (j : Json)
  | entry (t : Txt)
  | skip

/-- Per-line behavior of the echo server loop body from
src/command_echo_server.rs: parse, validate, build the echo response,
check it against the reply buffer capacity. -/
def serverLineOut (cap : Nat) (line : Txt) : LineAct :=
  match parseJson line with
  | none => .reply (errReplyJson (-32700) msgParse)
  | some j =>
    match parse_request j with
    | .error e => .reply (errReplyJson (-32600) e)
    | .ok none => .skip
    | .ok (some idv) =>
      let t := echoText idv line
      if utf8Len t > cap then .reply (errReplyJson (-32603) msgOversize)
      else .entry t

/-- Observable outputs of the echo server for one datagram: best-effort
error replies sent through reply_err, and success-path reply datagrams
handed to send_to. -/
inductive SEv where
  | reply (j : Json)
  | dgram (payload : Txt)

/-- Byte count reported by the next success-path send call. The list is
an oracle for the environment; once exhausted, sends complete fully. -/
def takeSent (oracle : List Nat) (requested : Nat) : Nat × List Nat :=
  match oracle with
  | [] => (requested, [])
  | n :: rest => (n, rest)

structure ServerSt where
  buf : Txt
  evs : List SEv
  oracle : List Nat

/-- One iteration of the per-line loop of the echo server run function:
emit an error reply, skip a notification, or append the response entry
to the reply buffer, flushing first when it would overflow. A flush
whose reported byte count falls short of the buffer length is fatal. -/
def serverStep (cap : Nat) (st : ServerSt) (line : Txt) : Except String ServerSt :=
  match serverLineOut cap line with
  | .reply j => .ok { st with evs := st.evs ++ [.reply j] }
  | .skip => .ok st
  | .entry t =>
    if st.buf ≠ [] ∧ utf8Len st.buf + 1 + utf8Len t > cap then
      let ts := takeSent st.oracle (utf8Len st.buf)
      if ts.1 ≠ utf8Len st.buf then .error msgShortSend
      else .ok { buf := t, evs := st.evs ++ [.dgram st.buf], oracle := ts.2 }
    else
      .ok { st with buf := if st.buf = [] then t else st.buf ++ nlChar :: t }

def serverLoop (cap : Nat) (st : ServerSt) : List Txt → Except String ServerSt
  | [] => .ok st
  | l :: rest =>
    match serverStep cap st l with
    | .error e => .error e
    | .ok st2 => serverLoop cap st2 rest

/-- Final flush of a non-empty reply buffer after all lines of the
datagram are processed, with the same short-write check. -/
def serverFinish (st : ServerSt) : Except String (List SEv) :=
  if st.buf = [] then .ok st.evs
  else
    let ts := takeSent st.oracle (utf8Len st.buf)
    if ts.1 ≠ utf8Len st.buf then .error msgShortSend
    else .ok (st.evs ++ [.dgram st.buf])

/-- Processing of one received datagram by the echo server run loop of
src/command_echo_server.rs: split the decoded text into lines, process
each line, flush the remaining reply buffer. -/
def serverDatagram (cap : Nat) (text : Txt) (oracle : List Nat) : Except String (List SEv) :=
  match serverLoop cap ⟨[], [], oracle⟩ (rustLines text) with
  | .error e => .error e
  | .ok st => serverFinish st

/-- Parse and validate one input line, as Request::parse of
src/command_call.rs does. The entry later placed in the send buffer is
the original line text, which RawJsonOwned keeps verbatim. -/
def requestParse (line : Txt) : Except String (Option RequestId) :=
  match parseJson line with
  | none => .error msgParse
  | some j => validate_request_and_parse_id j

structure ClientSt where
  buf : Txt
  dgrams : List Txt
  pending : Nat

/-- One iteration of the send loop of CallCommand::run: parse and
validate the line, reject it when it alone exceeds the capacity, flush
when appending would overflow, append with a separator when the buffer
is not empty, and count a pending response when an id is present. -/
def clientStep (cap : Nat) (st : ClientSt) (line : Txt) : Except String ClientSt :=
  match requestParse line with
  | .error e => .error e
  | .ok idOpt =>
    if utf8Len line > cap then .error msgTooBig
    else
      let st1 :=
        if utf8Len st.buf + (if st.buf = [] then 0 else 1) + utf8Len line > cap then
          ({ st with buf := [], dgrams := st.dgrams ++ [st.buf] } : ClientSt)
        else st
      .ok { buf := if st1.buf = [] then line else st1.buf ++ nlChar :: line,
            dgrams := st1.dgrams,
            pending := st1.pending + if idOpt.isSome then 1 else 0 }

def clientLoop (cap : Nat) (st : ClientSt) : List Txt → Except String ClientSt
  | [] => .ok st
  | l :: rest =>
    match clientStep cap st l with
    | .error e => .error e
    | .ok st2 => clientLoop cap st2 rest

def finalFlush (st : ClientSt) : List Txt :=
  if st.buf = [] then st.dgrams else st.dgrams ++ [st.buf]

structure ClientOut where
  datagrams : List Txt
  pending : Nat
  receivePhase : Bool

/-- The client run of CallCommand::run from src/command_call.rs, up to
the network sends: validate the configured capacity, process every
input line, flush the remaining buffer, and decide whether the receive
phase is entered (the pending_responses greater than zero branch). -/
def clientRun (cap : Nat) (lines : List Txt) : Except String ClientOut :=
  if cap = 0 then .error msgBufZero
  else if cap > MAX_UDP_PACKET then .error msgBufMax
  else
    match clientLoop cap ⟨[], [], 0⟩ lines with
    | .error e => .error e
    | .ok st => .ok ⟨finalFlush st, st.pending, decide (0 < st.pending)⟩

/-- Whether one input line is a valid request carrying an id. -/
def lineHasId (line : Txt) : Bool :=
  match requestParse line with
  | .ok r => r.isSome
  | .error _ => false

/-- Success-path datagram payloads among the server events. -/
def flushedPayloads (evs : List SEv) : List Txt :=
  evs.filterMap fun ev => match ev with | .dgram p => some p | .reply _ => none

/-- Response entries the server produces for a list of lines. -/
def entriesOfLines (cap : Nat) (ls : List Txt) : List Txt :=
  ls.filterMap fun l =>
    match serverLineOut cap l with
    | .entry t => some t
    | _ => none

mutual

/-- Absence of a raw newline character anywhere in a JSON value. -/
def jsonNoNl : Json → Bool
  | .null => true
  | .bool _ => true
  | .int _ => true
  | .float raw => raw.all fun c => c != nlChar
  | .str s => s.all fun c => c != nlChar
  | .arr es => jsonsNoNl es
  | .obj ms => membersNoNl ms

def jsonsNoNl : List Json → Bool
  | [] => true
  | j :: r => jsonNoNl j && jsonsNoNl r

def membersNoNl : List (Txt × Json) → Bool
  | [] => true
  | m :: r => (m.1.all fun c => c != nlChar) && jsonNoNl m.2 && membersNoNl r

end

/-- Whether a member, if it is an integer id, fits in an i64. -/
def idInRange (m : Txt × Json) : Bool :=
  if m.1 = keyId then
    match m.2 with
    | .int k => decide (i64Min ≤ k ∧ k ≤ i64Max)
    | _ => true
  else true

/-- Whether every integer id member of a value fits in an i64. -/
def jsonIdsInRange : Json → Bool
  | .obj ms => ms.all idInRange
  | _ => true

/-- Lookup of a member by name, for stating facts about built replies. -/
def objMember (k : Txt) : Json → Option Json
  | .obj ms => (ms.find? fun m => decide (m.1 = k)).map fun m => m.2
  | _ => none

/-- Entry sequence recovered from flushed datagrams: each payload is
split at its newline separators and the line lists are concatenated in
order, exactly as a receiver reassembles them. -/
def flushedEntries (evs : List SEv) : List Txt :=
  ((flushedPayloads evs).map splitNl).flatten

def lineA : Txt := "\x7b\"jsonrpc\":\"2.0\",\"method\":\"m\",\"id\":1\x7d".data

def lineN : Txt := "\x7b\"jsonrpc\":\"2.0\",\"method\":\"m\"\x7d".data

def lineB : Txt := "\x7b\"jsonrpc\":\"2.0\",\"method\":\"ping\",\"id\":\"abc\"\x7d".data

def respB : Txt :=
  "\x7b\"jsonrpc\":\"2.0\",\"id\":\"abc\",\"result\":\x7b\"jsonrpc\":\"2.0\",\"method\":\"ping\",\"id\":\"abc\"\x7d\x7d".data

def arrLine : Txt := "[1,2]".data

def jsonB : Json :=
  .obj [(keyJsonrpc, .str ("2.0".data)), (keyMethod, .str ("ping".data)), (keyId, .str ("abc".data))]

def idB : Json := .str ("abc".data)

def bigIdObj : Json :=
  .obj [(keyJsonrpc, .str ("2.0".data)), (keyMethod, .str ("m".data)), (keyId, .int (2 ^ 63))]

/-- Client-side id value built during the scan (the default case is
never reached on validated members). -/
def toRequestId : Json → RequestId
  | .int k => .number k
  | .str s => .string s
  | _ => .number 0

/-- Final value of the mutable id local of the client scan. -/
def idFoldC (a : Option RequestId) : List (Txt × Json) → Option RequestId
  | [] => a
  | m :: r => idFoldC (if m.1 = keyId then some (toRequestId m.2) else a) r

/-! Lemmas about byte lengths and newline splitting. -/

theorem isOk_ok {ε α : Type} (x : α) : (Except.ok x : Except ε α).isOk = true := rfl

theorem isOk_error {ε α : Type} (e : ε) : (Except.error e : Except ε α).isOk = false := rfl

theorem utf8Len_append (a b : Txt) : utf8Len (a ++ b) = utf8Len a + utf8Len b := by
  induction a with
  | nil => simp [utf8Len]
  | cons c r ih =>
    show c.utf8Size + utf8Len (r ++ b) = c.utf8Size + utf8Len r + utf8Len b
    rw [ih, Nat.add_assoc]

theorem nl_utf8Size : nlChar.utf8Size = 1 := by decide

theorem splitNl_cons_nl (t : Txt) : splitNl (nlChar :: t) = [] :: splitNl t := by
  simp [splitNl]

theorem splitNl_cons_other {c : Char} (hc : c ≠ nlChar) (t : Txt) :
    splitNl (c :: t) =
      match splitNl t with
      | [] => [[c]]
      | p :: ps => (c :: p) :: ps := by
  simp [splitNl, hc]

theorem splitNl_ne_nil (t : Txt) : splitNl t ≠ [] := by
  cases t with
  | nil => simp [splitNl]
  | cons c r =>
    by_cases hc : c = nlChar
    · subst hc; rw [splitNl_cons_nl]; simp
    · rw [splitNl_cons_other hc]
      cases h : splitNl r <;> simp

theorem splitNl_no_nl : ∀ {t : Txt}, nlChar ∉ t → splitNl t = [t] := by
  intro t h
  induction t with
  | nil => rfl
  | cons c r ih =>
    have hc : c ≠ nlChar := by rintro rfl; exact h (List.mem_cons_self _ _)
    have hr : nlChar ∉ r := fun hm => h (List.mem_cons_of_mem c hm)
    rw [splitNl_cons_other hc, ih hr]

theorem splitNl_append_nl (a b : Txt) : splitNl (a ++ nlChar :: b) = splitNl a ++ splitNl b := by
  induction a with
  | nil => rw [List.nil_append, splitNl_cons_nl]; rfl
  | cons c r ih =>
    by_cases hc : c = nlChar
    · subst hc
      rw [List.cons_append, splitNl_cons_nl, splitNl_cons_nl, ih, List.cons_append]
    · rw [List.cons_append, splitNl_cons_other hc, splitNl_cons_other hc, ih]
      cases h : splitNl r with
      | nil => exact absurd h (splitNl_ne_nil r)
      | cons p ps => rfl

theorem mem_splitNl_no_nl : ∀ {t p : Txt}, p ∈ splitNl t → nlChar ∉ p := by
  intro t
  induction t with
  | nil =>
    intro p hp
    simp only [splitNl, List.mem_singleton] at hp
    subst hp; simp
  | cons c r ih =>
    intro p hp
    by_cases hc : c = nlChar
    · subst hc
      rw [splitNl_cons_nl] at hp
      rcases List.mem_cons.mp hp with hp | hp
      · subst hp; simp
      · exact ih hp
    · rw [splitNl_cons_other hc] at hp
      cases h : splitNl r with
      | nil => exact absurd h (splitNl_ne_nil r)
      | cons q qs =>
        rw [h] at hp
        rcases List.mem_cons.mp hp with hp | hp
        · subst hp
          intro hmem
          rcases List.mem_cons.mp hmem with h1 | h1
          · exact hc h1.symm
          · exact ih (by rw [h]; exact List.mem_cons_self q qs) h1
        · exact ih (by rw [h]; exact List.mem_cons_of_mem q hp)

theorem linesCore_subset : ∀ {ps : List Txt} {l : Txt}, l ∈ linesCore ps → l ∈ ps := by
  intro ps
  induction ps with
  | nil => intro l h; simp [linesCore] at h
  | cons p rest ih =>
    intro l h
    cases rest with
    | nil =>
      simp only [linesCore] at h
      split at h
      · simp at h
      · simp only [List.mem_singleton] at h
        subst h; exact List.mem_cons_self _ _
    | cons p2 r2 =>
      rcases List.mem_cons.mp h with h | h
      · subst h; exact List.mem_cons_self _ _
      · exact List.mem_cons_of_mem _ (ih h)

theorem stripCr_subset {l : Txt} {c : Char} (h : c ∈ stripCr l) : c ∈ l := by
  unfold stripCr at h
  split at h
  · exact List.dropLast_subset l h
  · exact h

theorem mem_rustLines_no_nl {t l : Txt} (h : l ∈ rustLines t) : nlChar ∉ l := by
  unfold rustLines at h
  rcases List.mem_map.mp h with ⟨l0, hl0, rfl⟩
  intro hc
  exact mem_splitNl_no_nl (linesCore_subset hl0) (stripCr_subset hc)

theorem linesCore_append_empty : ∀ ps : List Txt, linesCore (ps ++ [[]]) = ps := by
  intro ps
  induction ps with
  | nil => rfl
  | cons p rest ih =>
    cases rest with
    | nil => rfl
    | cons p2 r2 =>
      simp only [List.cons_append]
      show p :: linesCore (p2 :: (r2 ++ [[]])) = p :: p2 :: r2
      rw [← List.cons_append, ih]

theorem rustLines_append_nl (t : Txt) : rustLines (t ++ [nlChar]) = (splitNl t).map stripCr := by
  unfold rustLines
  rw [show t ++ [nlChar] = t ++ nlChar :: [] from rfl, splitNl_append_nl]
  show (linesCore (splitNl t ++ [[]])).map stripCr = _
  rw [linesCore_append_empty]

theorem bufEntries_nil : bufEntries [] = [] := rfl

theorem bufEntries_of_ne {buf : Txt} (h : buf ≠ []) : bufEntries buf = splitNl buf := by
  simp [bufEntries, h]

theorem bufEntries_single {e : Txt} (hne : e ≠ []) (h : nlChar ∉ e) : bufEntries e = [e] := by
  simp [bufEntries, hne, splitNl_no_nl h]

theorem bufEntries_append_entry {buf e : Txt} (hb : buf ≠ []) (h : nlChar ∉ e) :
    bufEntries (buf ++ nlChar :: e) = bufEntries buf ++ [e] := by
  have hne : buf ++ nlChar :: e ≠ [] := by simp
  rw [bufEntries_of_ne hne, bufEntries_of_ne hb, splitNl_append_nl, splitNl_no_nl h]

/-! Lemmas about the client send loop. -/

theorem requestParse_nil : requestParse [] = .error msgParse := rfl

theorem requestParse_ok_ne_nil {line : Txt} {r : Option RequestId}
    (h : requestParse line = .ok r) : line ≠ [] := by
  rintro rfl
  rw [requestParse_nil] at h
  exact Except.noConfusion h

/-- Entry bookkeeping of one client step: the entries recoverable from
the flushed datagrams plus the buffer grow by exactly the processed
line. -/
theorem clientStep_ok_entries {cap : Nat} {st st2 : ClientSt} {line : Txt}
    (h : clientStep cap st line = .ok st2) (hnl : nlChar ∉ line) :
    (st2.dgrams.map splitNl).flatten ++ bufEntries st2.buf
      = (st.dgrams.map splitNl).flatten ++ bufEntries st.buf ++ [line] := by
  unfold clientStep at h
  cases hreq : requestParse line with
  | error e => rw [hreq] at h; simp at h
  | ok idOpt =>
    rw [hreq] at h
    have hne : line ≠ [] := requestParse_ok_ne_nil hreq
    by_cases hbig : utf8Len line > cap
    · simp [hbig] at h
    · by_cases hover : utf8Len st.buf + (if st.buf = [] then 0 else 1) + utf8Len line > cap
      · have hbufne : st.buf ≠ [] := by
          rintro hb
          rw [hb] at hover
          simp [utf8Len] at hover
          exact hbig hover
        simp [hbig, hover] at h
        subst h
        rw [List.map_append, List.flatten_append, bufEntries_single hne hnl,
          bufEntries_of_ne hbufne]
        simp [List.append_assoc]
      · simp [hbig, hover] at h
        subst h
        by_cases hb : st.buf = []
        · rw [if_pos hb, hb, bufEntries_nil, bufEntries_single hne hnl]
          simp
        · rw [if_neg hb, bufEntries_append_entry hb hnl]
          simp [List.append_assoc]

/-- Flushed datagram and buffer length bookkeeping of one client step. -/
theorem clientStep_ok_caps {cap : Nat} {st st2 : ClientSt} {line : Txt}
    (h : clientStep cap st line = .ok st2)
    (hbuf : utf8Len st.buf ≤ cap) (hds : ∀ d ∈ st.dgrams, utf8Len d ≤ cap) :
    utf8Len st2.buf ≤ cap ∧ ∀ d ∈ st2.dgrams, utf8Len d ≤ cap := by
  unfold clientStep at h
  cases hreq : requestParse line with
  | error e => rw [hreq] at h; simp at h
  | ok idOpt =>
    rw [hreq] at h
    by_cases hbig : utf8Len line > cap
    · simp [hbig] at h
    · by_cases hover : utf8Len st.buf + (if st.buf = [] then 0 else 1) + utf8Len line > cap
      · simp [hbig, hover] at h
        subst h
        refine ⟨Nat.le_of_not_lt hbig, ?_⟩
        intro d hd
        rcases List.mem_append.mp hd with hd | hd
        · exact hds d hd
        · rw [List.mem_singleton.mp hd]; exact hbuf
      · simp [hbig, hover] at h
        subst h
        constructor
        · by_cases hb : st.buf = []
          · rw [if_pos hb]
            exact Nat.le_of_not_lt hbig
          · rw [if_neg hb, utf8Len_append]
            have h1 : utf8Len (nlChar :: line) = 1 + utf8Len line := by
              simp [utf8Len, nl_utf8Size]
            rw [h1]
            rw [if_neg hb] at hover
            omega
        · exact hds

/-- Pending-response bookkeeping of one client step. -/
theorem clientStep_ok_pending {cap : Nat} {st st2 : ClientSt} {line : Txt}
    (h : clientStep cap st line = .ok st2) :
    st2.pending = st.pending + (if lineHasId line then 1 else 0) := by
  unfold clientStep at h
  cases hreq : requestParse line with
  | error e => rw [hreq] at h; simp at h
  | ok idOpt =>
    rw [hreq] at h
    by_cases hbig : utf8Len line > cap
    · simp [hbig] at h
    · have hid : lineHasId line = idOpt.isSome := by
        unfold lineHasId
        rw [hreq]
      by_cases hover : utf8Len st.buf + (if st.buf = [] then 0 else 1) + utf8Len line > cap
      · simp [hbig, hover] at h
        subst h
        simp [hid]
      · simp [hbig, hover] at h
        subst h
        simp [hid]

theorem clientLoop_entries {cap : Nat} : ∀ {lines : List Txt} {st st2 : ClientSt},
    (∀ l ∈ lines, nlChar ∉ l) → clientLoop cap st lines = .ok st2 →
    (st2.dgrams.map splitNl).flatten ++ bufEntries st2.buf
      = (st.dgrams.map splitNl).flatten ++ bufEntries st.buf ++ lines := by
  intro lines
  induction lines with
  | nil =>
    intro st st2 _ h
    injection h with h2
    subst h2
    simp
  | cons l rest ih =>
    intro st st2 hnl h
    unfold clientLoop at h
    cases hs : clientStep cap st l with
    | error e => rw [hs] at h; simp at h
    | ok stm =>
      rw [hs] at h
      have h2 : clientLoop cap stm rest = .ok st2 := h
      have e1 := clientStep_ok_entries hs (hnl l (List.mem_cons_self _ _))
      have e2 := ih (fun x hx => hnl x (List.mem_cons_of_mem _ hx)) h2
      rw [e2, e1]
      simp [List.append_assoc]

theorem clientLoop_caps {cap : Nat} : ∀ {lines : List Txt} {st st2 : ClientSt},
    clientLoop cap st lines = .ok st2 →
    utf8Len st.buf ≤ cap → (∀ d ∈ st.dgrams, utf8Len d ≤ cap) →
    utf8Len st2.buf ≤ cap ∧ ∀ d ∈ st2.dgrams, utf8Len d ≤ cap := by
  intro lines
  induction lines with
  | nil =>
    intro st st2 h hb hd
    injection h with h2
    subst h2
    exact ⟨hb, hd⟩
  | cons l rest ih =>
    intro st st2 h hb hd
    unfold clientLoop at h
    cases hs : clientStep cap st l with
    | error e => rw [hs] at h; simp at h
    | ok stm =>
      rw [hs] at h
      have h2 : clientLoop cap stm rest = .ok st2 := h
      obtain ⟨hb2, hd2⟩ := clientStep_ok_caps hs hb hd
      exact ih h2 hb2 hd2

theorem clientLoop_pending {cap : Nat} : ∀ {lines : List Txt} {st st2 : ClientSt},
    clientLoop cap st lines = .ok st2 →
    st2.pending = st.pending + lines.countP lineHasId := by
  intro lines
  induction lines with
  | nil =>
    intro st st2 h
    injection h with h2
    subst h2
    simp
  | cons l rest ih =>
    intro st st2 h
    unfold clientLoop at h
    cases hs : clientStep cap st l with
    | error e => rw [hs] at h; simp at h
    | ok stm =>
      rw [hs] at h
      have h2 : clientLoop cap stm rest = .ok st2 := h
      rw [ih h2, clientStep_ok_pending hs, List.countP_cons]
      by_cases hl : lineHasId l
      · simp [hl]
        omega
      · simp [hl]

theorem finalFlush_entries (st : ClientSt) :
    ((finalFlush st).map splitNl).flatten
      = (st.dgrams.map splitNl).flatten ++ bufEntries st.buf := by
  unfold finalFlush
  by_cases hb : st.buf = []
  · rw [if_pos hb, hb, bufEntries_nil, List.append_nil]
  · rw [if_neg hb, bufEntries_of_ne hb, List.map_append, List.flatten_append]
    simp

theorem finalFlush_caps {cap : Nat} {st : ClientSt}
    (hb : utf8Len st.buf ≤ cap) (hd : ∀ d ∈ st.dgrams, utf8Len d ≤ cap) :
    ∀ d ∈ finalFlush st, utf8Len d ≤ cap := by
  intro d hdm
  unfold finalFlush at hdm
  by_cases h0 : st.buf = []
  · rw [if_pos h0] at hdm
    exact hd d hdm
  · rw [if_neg h0] at hdm
    rcases List.mem_append.mp hdm with hdm | hdm
    · exact hd d hdm
    · rw [List.mem_singleton.mp hdm]
      exact hb

/-- Elimination form of a successful client run: the capacity guards
passed and the output is assembled from the final loop state. -/
theorem clientRun_ok_elim {cap : Nat} {lines : List Txt} {out : ClientOut}
    (h : clientRun cap lines = .ok out) :
    cap ≠ 0 ∧ cap ≤ MAX_UDP_PACKET ∧
      ∃ st : ClientSt, clientLoop cap ⟨[], [], 0⟩ lines = .ok st ∧
        out.datagrams = finalFlush st ∧ out.pending = st.pending ∧
        out.receivePhase = decide (0 < st.pending) := by
  unfold clientRun at h
  by_cases h0 : cap = 0
  · rw [if_pos h0] at h; simp at h
  · rw [if_neg h0] at h
    by_cases hmax : cap > MAX_UDP_PACKET
    · rw [if_pos hmax] at h; simp at h
    · rw [if_neg hmax] at h
      refine ⟨h0, Nat.le_of_not_lt hmax, ?_⟩
      cases hl : clientLoop cap ⟨[], [], 0⟩ lines with
      | error e => rw [hl] at h; simp at h
      | ok st =>
        rw [hl] at h
        have h2 : Except.ok (⟨finalFlush st, st.pending, decide (0 < st.pending)⟩ : ClientOut)
            = .ok out := h
        injection h2 with h3
        exact ⟨st, rfl, by rw [← h3], by rw [← h3], by rw [← h3]⟩

/-! Lemmas about the validator member scans. -/

theorem keyJ_ne_keyI : ¬ keyJsonrpc = keyId := by decide

theorem keyJ_ne_keyM : ¬ keyJsonrpc = keyMethod := by decide

theorem keyI_ne_keyJ : ¬ keyId = keyJsonrpc := by decide

theorem keyI_ne_keyM : ¬ keyId = keyMethod := by decide

theorem keyM_ne_keyJ : ¬ keyMethod = keyJsonrpc := by decide

theorem keyM_ne_keyI : ¬ keyMethod = keyId := by decide

theorem keyP_ne_keyJ : ¬ keyParams = keyJsonrpc := by decide

theorem keyP_ne_keyI : ¬ keyParams = keyId := by decide

theorem keyP_ne_keyM : ¬ keyParams = keyMethod := by decide

theorem scanU_cons_ok (m : Txt × Json) (rest : List (Txt × Json)) (hj hm : Bool)
    (id : Option Json) (hok : memberOkB m = true) :
    scanU (m :: rest) hj hm id
      = scanU rest (hj || decide (m.1 = keyJsonrpc)) (hm || decide (m.1 = keyMethod))
          (if m.1 = keyId then some m.2 else id) := by
  obtain ⟨n, v⟩ := m
  by_cases h1 : n = keyJsonrpc
  · subst h1
    cases v with
    | str s =>
      have h2 : s = "2.0".data := by simpa [memberOkB] using hok
      simp [scanU, h2, keyJ_ne_keyI, keyJ_ne_keyM]
    | null => simp [memberOkB] at hok
    | bool b => simp [memberOkB] at hok
    | int k => simp [memberOkB] at hok
    | float raw => simp [memberOkB] at hok
    | arr es => simp [memberOkB] at hok
    | obj ms2 => simp [memberOkB] at hok
  · by_cases h2 : n = keyId
    · subst h2
      have hk : v.kind = .integer ∨ v.kind = .string := by
        simpa [memberOkB, keyI_ne_keyJ] using hok
      simp [scanU, keyI_ne_keyJ, keyI_ne_keyM, hk]
    · by_cases h3 : n = keyMethod
      · subst h3
        have hk : v.kind = .string := by
          simpa [memberOkB, keyM_ne_keyJ, keyM_ne_keyI] using hok
        simp [scanU, keyM_ne_keyJ, keyM_ne_keyI, hk]
      · by_cases h4 : n = keyParams
        · subst h4
          have hk : v.kind = .object ∨ v.kind = .array := by
            simpa [memberOkB, keyP_ne_keyJ, keyP_ne_keyI, keyP_ne_keyM] using hok
          simp [scanU, keyP_ne_keyJ, keyP_ne_keyI, keyP_ne_keyM, hk]
        · simp [scanU, h1, h2, h3, h4]

theorem scanU_cons_err (m : Txt × Json) (rest : List (Txt × Json)) (hj hm : Bool)
    (id : Option Json) (hbad : memberOkB m = false) :
    ∃ e, scanU (m :: rest) hj hm id = .error e ∧
      (e = msgNotString ∨ e = msgVersion ∨ e = msgIdType ∨ e = msgMethodType ∨
        e = msgParamsType) := by
  obtain ⟨n, v⟩ := m
  by_cases h1 : n = keyJsonrpc
  · subst h1
    cases v with
    | str s =>
      have h2 : ¬ s = "2.0".data := by simpa [memberOkB] using hbad
      exact ⟨msgVersion, by simp [scanU, h2], by simp⟩
    | null => exact ⟨msgNotString, by simp [scanU], by simp⟩
    | bool b => exact ⟨msgNotString, by simp [scanU], by simp⟩
    | int k => exact ⟨msgNotString, by simp [scanU], by simp⟩
    | float raw => exact ⟨msgNotString, by simp [scanU], by simp⟩
    | arr es => exact ⟨msgNotString, by simp [scanU], by simp⟩
    | obj ms2 => exact ⟨msgNotString, by simp [scanU], by simp⟩
  · by_cases h2 : n = keyId
    · subst h2
      have hk : ¬(v.kind = .integer ∨ v.kind = .string) := by
        simpa [memberOkB, keyI_ne_keyJ] using hbad
      exact ⟨msgIdType, by simp [scanU, keyI_ne_keyJ, hk], by simp⟩
    · by_cases h3 : n = keyMethod
      · subst h3
        have hk : ¬ v.kind = .string := by
          simpa [memberOkB, keyM_ne_keyJ, keyM_ne_keyI] using hbad
        exact ⟨msgMethodType, by simp [scanU, keyM_ne_keyJ, keyM_ne_keyI, hk], by simp⟩
      · by_cases h4 : n = keyParams
        · subst h4
          have hk : ¬(v.kind = .object ∨ v.kind = .array) := by
            simpa [memberOkB, keyP_ne_keyJ, keyP_ne_keyI, keyP_ne_keyM] using hbad
          exact ⟨msgParamsType,
            by simp [scanU, keyP_ne_keyJ, keyP_ne_keyI, keyP_ne_keyM, hk], by simp⟩
        · exfalso
          simp [memberOkB, h1, h2, h3, h4] at hbad

theorem scanU_isOk : ∀ (ms : List (Txt × Json)) (hj hm : Bool) (id : Option Json),
    (scanU ms hj hm id).isOk = ms.all memberOkB := by
  intro ms
  induction ms with
  | nil => intro hj hm id; rfl
  | cons m rest ih =>
    intro hj hm id
    by_cases hok : memberOkB m = true
    · rw [scanU_cons_ok m rest hj hm id hok, ih, List.all_cons, hok, Bool.true_and]
    · have hbad : memberOkB m = false := by simpa using hok
      obtain ⟨e, he, _⟩ := scanU_cons_err m rest hj hm id hbad
      rw [he, List.all_cons, hbad]
      rfl

theorem scanU_ok_val : ∀ (ms : List (Txt × Json)) (hj hm : Bool) (id : Option Json),
    ms.all memberOkB = true →
    scanU ms hj hm id
      = .ok (hj || hasKey keyJsonrpc ms, hm || hasKey keyMethod ms, idFold id ms) := by
  intro ms
  induction ms with
  | nil => intro hj hm id _; simp [scanU, hasKey, idFold]
  | cons m rest ih =>
    intro hj hm id hall
    rw [List.all_cons] at hall
    obtain ⟨hok, hrest⟩ := Bool.and_eq_true_iff.mp hall
    rw [scanU_cons_ok m rest hj hm id hok, ih _ _ _ hrest]
    simp [hasKey, List.any_cons, Bool.or_assoc, idFold]

theorem scanU_err_msgs : ∀ (ms : List (Txt × Json)) (hj hm : Bool) (id : Option Json)
    (e : String), scanU ms hj hm id = .error e →
    e = msgNotString ∨ e = msgVersion ∨ e = msgIdType ∨ e = msgMethodType ∨
      e = msgParamsType := by
  intro ms
  induction ms with
  | nil => intro hj hm id e h; exact absurd h (by simp [scanU])
  | cons m rest ih =>
    intro hj hm id e h
    by_cases hok : memberOkB m = true
    · rw [scanU_cons_ok m rest hj hm id hok] at h
      exact ih _ _ _ _ h
    · obtain ⟨e2, he2, hd⟩ := scanU_cons_err m rest hj hm id (by simpa using hok)
      rw [he2] at h
      injection h with h3
      subst h3
      exact hd

theorem scanU_some_id : ∀ (ms : List (Txt × Json)) (hj hm : Bool) (id0 : Option Json)
    (hj2 hm2 : Bool) (v : Json),
    scanU ms hj hm id0 = .ok (hj2, hm2, some v) →
    id0 = some v ∨ ((∃ n, (n, v) ∈ ms) ∧ (v.kind = .integer ∨ v.kind = .string)) := by
  intro ms
  induction ms with
  | nil =>
    intro hj hm id0 hj2 hm2 v h
    injection h with h2
    exact Or.inl (congrArg (fun p => p.2.2) h2)
  | cons m rest ih =>
    intro hj hm id0 hj2 hm2 v h
    by_cases hok : memberOkB m = true
    · rw [scanU_cons_ok m rest hj hm id0 hok] at h
      rcases ih _ _ _ _ _ _ h with hid | ⟨⟨n2, hn2⟩, hkind⟩
      · by_cases hkey : m.1 = keyId
        · rw [if_pos hkey] at hid
          injection hid with hv
          have hk : v.kind = .integer ∨ v.kind = .string := by
            rw [← hv]
            simpa [memberOkB, hkey, keyI_ne_keyJ] using hok
          refine Or.inr ⟨⟨m.1, ?_⟩, hk⟩
          have : m = (m.1, v) := by
            rw [← hv]
          rw [← this]
          exact List.mem_cons_self _ _
        · rw [if_neg hkey] at hid
          exact Or.inl hid
      · exact Or.inr ⟨⟨n2, List.mem_cons_of_mem _ hn2⟩, hkind⟩
    · obtain ⟨e2, he2, _⟩ := scanU_cons_err m rest hj hm id0 (by simpa using hok)
      rw [he2] at h
      exact Except.noConfusion h

theorem scanS_eq_scanU : ∀ (ms : List (Txt × Json)) (hj hm : Bool) (id : Option Json),
    scanS ms hj hm id = scanU ms hj hm id := by
  intro ms
  induction ms with
  | nil => intro hj hm id; rfl
  | cons m rest ih =>
    intro hj hm id
    obtain ⟨n, v⟩ := m
    by_cases h1 : n = keyJsonrpc
    · subst h1
      cases v with
      | str s =>
        by_cases h2 : s = "2.0".data
        · simp [scanS, scanU, h2, ih]
        · simp [scanS, scanU, h2]
      | null => simp [scanS, scanU]
      | bool b => simp [scanS, scanU]
      | int k => simp [scanS, scanU]
      | float raw => simp [scanS, scanU]
      | arr es => simp [scanS, scanU]
      | obj ms2 => simp [scanS, scanU]
    · by_cases h2 : n = keyId
      · subst h2
        by_cases hk : v.kind = .integer ∨ v.kind = .string
        · simp [scanS, scanU, keyI_ne_keyJ, hk, ih]
        · simp [scanS, scanU, keyI_ne_keyJ, hk]
      · by_cases h3 : n = keyMethod
        · subst h3
          by_cases hk : v.kind = .string
          · simp [scanS, scanU, keyM_ne_keyJ, keyM_ne_keyI, hk, ih]
          · simp [scanS, scanU, keyM_ne_keyJ, keyM_ne_keyI, hk]
        · by_cases h4 : n = keyParams
          · subst h4
            by_cases hk : v.kind = .object ∨ v.kind = .array
            · simp [scanS, scanU, keyP_ne_keyJ, keyP_ne_keyI, keyP_ne_keyM, hk, ih]
            · simp [scanS, scanU, keyP_ne_keyJ, keyP_ne_keyI, keyP_ne_keyM, hk]
          · simp [scanS, scanU, h1, h2, h3, h4, ih]

/-- The echo server validator is the same function as the utils one:
the two Rust sources hold textually identical copies. -/
theorem parse_request_eq_validate (v : Json) :
    parse_request v = validate_json_rpc_request v := by
  cases v with
  | obj ms =>
    simp only [parse_request, validate_json_rpc_request, scanS_eq_scanU]
  | null => rfl
  | bool b => rfl
  | int n => rfl
  | float raw => rfl
  | str s => rfl
  | arr es => rfl

theorem scanC_cons_ok (m : Txt × Json) (rest : List (Txt × Json)) (hj hm : Bool)
    (id : Option RequestId) (hok : memberOkB m = true) (hr : idInRange m = true) :
    scanC (m :: rest) hj hm id
      = scanC rest (hj || decide (m.1 = keyJsonrpc)) (hm || decide (m.1 = keyMethod))
          (if m.1 = keyId then some (toRequestId m.2) else id) := by
  obtain ⟨n, v⟩ := m
  by_cases h1 : n = keyJsonrpc
  · subst h1
    cases v with
    | str s =>
      have h2 : s = "2.0".data := by simpa [memberOkB] using hok
      simp [scanC, h2, keyJ_ne_keyI, keyJ_ne_keyM]
    | null => simp [memberOkB] at hok
    | bool b => simp [memberOkB] at hok
    | int k => simp [memberOkB] at hok
    | float raw => simp [memberOkB] at hok
    | arr es => simp [memberOkB] at hok
    | obj ms2 => simp [memberOkB] at hok
  · by_cases h2 : n = keyId
    · subst h2
      cases v with
      | int k =>
        have hrk : i64Min ≤ k ∧ k ≤ i64Max := by simpa [idInRange] using hr
        simp [scanC, keyI_ne_keyJ, keyI_ne_keyM, intToI64, hrk, toRequestId]
      | str s => simp [scanC, keyI_ne_keyJ, keyI_ne_keyM, toRequestId]
      | null => simp [memberOkB, keyI_ne_keyJ, Json.kind] at hok
      | bool b => simp [memberOkB, keyI_ne_keyJ, Json.kind] at hok
      | float raw => simp [memberOkB, keyI_ne_keyJ, Json.kind] at hok
      | arr es => simp [memberOkB, keyI_ne_keyJ, Json.kind] at hok
      | obj ms2 => simp [memberOkB, keyI_ne_keyJ, Json.kind] at hok
    · by_cases h3 : n = keyMethod
      · subst h3
        have hk : v.kind = .string := by
          simpa [memberOkB, keyM_ne_keyJ, keyM_ne_keyI] using hok
        simp [scanC, keyM_ne_keyJ, keyM_ne_keyI, hk]
      · by_cases h4 : n = keyParams
        · subst h4
          have hk : v.kind = .object ∨ v.kind = .array := by
            simpa [memberOkB, keyP_ne_keyJ, keyP_ne_keyI, keyP_ne_keyM] using hok
          simp [scanC, keyP_ne_keyJ, keyP_ne_keyI, keyP_ne_keyM, hk]
        · simp [scanC, h1, h2, h3, h4]

theorem scanC_cons_err (m : Txt × Json) (rest : List (Txt × Json)) (hj hm : Bool)
    (id : Option RequestId) (hbad : memberOkB m = false) :
    ∃ e, scanC (m :: rest) hj hm id = .error e := by
  obtain ⟨n, v⟩ := m
  by_cases h1 : n = keyJsonrpc
  · subst h1
    cases v with
    | str s =>
      have h2 : ¬ s = "2.0".data := by simpa [memberOkB] using hbad
      exact ⟨msgVersion, by simp [scanC, h2]⟩
    | null => exact ⟨msgNotString, by simp [scanC]⟩
    | bool b => exact ⟨msgNotString, by simp [scanC]⟩
    | int k => exact ⟨msgNotString, by simp [scanC]⟩
    | float raw => exact ⟨msgNotString, by simp [scanC]⟩
    | arr es => exact ⟨msgNotString, by simp [scanC]⟩
    | obj ms2 => exact ⟨msgNotString, by simp [scanC]⟩
  · by_cases h2 : n = keyId
    · subst h2
      cases v with
      | int k => simp [memberOkB, keyI_ne_keyJ, Json.kind] at hbad
      | str s => simp [memberOkB, keyI_ne_keyJ, Json.kind] at hbad
      | null => exact ⟨msgIdType, by simp [scanC, keyI_ne_keyJ]⟩
      | bool b => exact ⟨msgIdType, by simp [scanC, keyI_ne_keyJ]⟩
      | float raw => exact ⟨msgIdType, by simp [scanC, keyI_ne_keyJ]⟩
      | arr es => exact ⟨msgIdType, by simp [scanC, keyI_ne_keyJ]⟩
      | obj ms2 => exact ⟨msgIdType, by simp [scanC, keyI_ne_keyJ]⟩
    · by_cases h3 : n = keyMethod
      · subst h3
        have hk : ¬ v.kind = .string := by
          simpa [memberOkB, keyM_ne_keyJ, keyM_ne_keyI] using hbad
        exact ⟨msgMethodType, by simp [scanC, keyM_ne_keyJ, keyM_ne_keyI, hk]⟩
      · by_cases h4 : n = keyParams
        · subst h4
          have hk : ¬(v.kind = .object ∨ v.kind = .array) := by
            simpa [memberOkB, keyP_ne_keyJ, keyP_ne_keyI, keyP_ne_keyM] using hbad
          exact ⟨msgParamsType,
            by simp [scanC, keyP_ne_keyJ, keyP_ne_keyI, keyP_ne_keyM, hk]⟩
        · exfalso
          simp [memberOkB, h1, h2, h3, h4] at hbad

theorem scanC_isOk_of_inRange : ∀ (ms : List (Txt × Json)) (hj hm : Bool)
    (id : Option RequestId), ms.all idInRange = true →
    (scanC ms hj hm id).isOk = ms.all memberOkB := by
  intro ms
  induction ms with
  | nil => intro hj hm id _; rfl
  | cons m rest ih =>
    intro hj hm id hrange
    rw [List.all_cons] at hrange
    obtain ⟨hr, hrrest⟩ := Bool.and_eq_true_iff.mp hrange
    by_cases hok : memberOkB m = true
    · rw [scanC_cons_ok m rest hj hm id hok hr, ih _ _ _ hrrest, List.all_cons, hok,
        Bool.true_and]
    · have hbad : memberOkB m = false := by simpa using hok
      obtain ⟨e, he⟩ := scanC_cons_err m rest hj hm id hbad
      rw [he, List.all_cons, hbad]
      rfl

theorem scanC_ok_val : ∀ (ms : List (Txt × Json)) (hj hm : Bool) (id : Option RequestId),
    ms.all memberOkB = true → ms.all idInRange = true →
    scanC ms hj hm id
      = .ok (hj || hasKey keyJsonrpc ms, hm || hasKey keyMethod ms, idFoldC id ms) := by
  intro ms
  induction ms with
  | nil => intro hj hm id _ _; simp [scanC, hasKey, idFoldC]
  | cons m rest ih =>
    intro hj hm id hall hrange
    rw [List.all_cons] at hall hrange
    obtain ⟨hok, hrest⟩ := Bool.and_eq_true_iff.mp hall
    obtain ⟨hr, hrrest⟩ := Bool.and_eq_true_iff.mp hrange
    rw [scanC_cons_ok m rest hj hm id hok hr, ih _ _ _ hrest hrrest]
    simp [hasKey, List.any_cons, Bool.or_assoc, idFoldC]

theorem idFold_isSome : ∀ (ms : List (Txt × Json)) (a : Option Json),
    (idFold a ms).isSome = (a.isSome || hasKey keyId ms) := by
  intro ms
  induction ms with
  | nil => intro a; simp [idFold, hasKey]
  | cons m rest ih =>
    intro a
    rw [show idFold a (m :: rest) = idFold (if m.1 = keyId then some m.2 else a) rest from rfl,
      ih]
    by_cases hk : m.1 = keyId
    · simp [hk, hasKey, List.any_cons]
    · simp [hk, hasKey, List.any_cons]

theorem idFoldC_isSome : ∀ (ms : List (Txt × Json)) (a : Option RequestId),
    (idFoldC a ms).isSome = (a.isSome || hasKey keyId ms) := by
  intro ms
  induction ms with
  | nil => intro a; simp [idFoldC, hasKey]
  | cons m rest ih =>
    intro a
    rw [show idFoldC a (m :: rest)
        = idFoldC (if m.1 = keyId then some (toRequestId m.2) else a) rest from rfl, ih]
    by_cases hk : m.1 = keyId
    · simp [hk, hasKey, List.any_cons]
    · simp [hk, hasKey, List.any_cons]

/-! Lemmas about the validators as whole functions. -/

theorem validate_obj_eq (ms : List (Txt × Json)) :
    validate_json_rpc_request (.obj ms)
      = match scanU ms false false none with
        | .error e => .error e
        | .ok (hj, hm, id) =>
          if hj = false then .error msgJsonrpcRequired
          else if hm = false then .error msgMethodRequired
          else .ok id := rfl

theorem validateC_obj_eq (ms : List (Txt × Json)) :
    validate_request_and_parse_id (.obj ms)
      = match scanC ms false false none with
        | .error e => .error e
        | .ok (hj, hm, id) =>
          if hj = false then .error msgJsonrpcRequired
          else if hm = false then .error msgMethodRequired
          else .ok id := rfl

theorem validate_isOk (v : Json) :
    (validate_json_rpc_request v).isOk = specValidRequest v := by
  cases v with
  | obj ms =>
    rw [validate_obj_eq]
    by_cases hall : ms.all memberOkB = true
    · rw [scanU_ok_val ms false false none hall]
      by_cases hj : hasKey keyJsonrpc ms
      · by_cases hm : hasKey keyMethod ms
        · simp [specValidRequest, hall, hj, hm, isOk_ok]
        · have hm2 : hasKey keyMethod ms = false := by simpa using hm
          simp [specValidRequest, hall, hj, hm2, isOk_error]
      · have hj2 : hasKey keyJsonrpc ms = false := by simpa using hj
        simp [specValidRequest, hall, hj2, isOk_error]
    · have hall2 : ms.all memberOkB = false := by simpa using hall
      cases hsc : scanU ms false false none with
      | error e => simp [specValidRequest, hall2, isOk_error]
      | ok trip =>
        have h2 := scanU_isOk ms false false none
        rw [hsc, hall2] at h2
        simp [isOk_ok] at h2
  | null => rfl
  | bool b => rfl
  | int n => rfl
  | float raw => rfl
  | str s => rfl
  | arr es => rfl

theorem validate_ok_id {ms : List (Txt × Json)} {r : Option Json}
    (h : validate_json_rpc_request (.obj ms) = .ok r) :
    r = idFold none ms ∧ r.isSome = hasKey keyId ms := by
  have hallOk : (validate_json_rpc_request (.obj ms)).isOk = true := by
    rw [h]
    rfl
  rw [validate_isOk] at hallOk
  have hall : ms.all memberOkB = true := by
    simp only [specValidRequest, Bool.and_eq_true] at hallOk
    exact hallOk.1.1
  rw [validate_obj_eq] at h
  rw [scanU_ok_val ms false false none hall] at h
  have h3 : (if (false || hasKey keyJsonrpc ms) = false
        then (Except.error msgJsonrpcRequired : Except String (Option Json))
        else if (false || hasKey keyMethod ms) = false then Except.error msgMethodRequired
        else Except.ok (idFold none ms)) = Except.ok r := h
  by_cases hj : (false || hasKey keyJsonrpc ms) = false
  · rw [if_pos hj] at h3
    exact Except.noConfusion h3
  · rw [if_neg hj] at h3
    by_cases hm : (false || hasKey keyMethod ms) = false
    · rw [if_pos hm] at h3
      exact Except.noConfusion h3
    · rw [if_neg hm] at h3
      injection h3 with h2
      subst h2
      exact ⟨rfl, by rw [idFold_isSome]; simp⟩

theorem validate_ok_obj {j : Json} {r : Option Json}
    (h : validate_json_rpc_request j = .ok r) : ∃ ms, j = .obj ms := by
  cases j with
  | obj ms => exact ⟨ms, rfl⟩
  | null => exact Except.noConfusion h
  | bool b => exact Except.noConfusion h
  | int n => exact Except.noConfusion h
  | float raw => exact Except.noConfusion h
  | str s => exact Except.noConfusion h
  | arr es => exact Except.noConfusion h

theorem validate_ok_some_id {ms : List (Txt × Json)} {idv : Json}
    (h : validate_json_rpc_request (.obj ms) = .ok (some idv)) :
    (∃ n, (n, idv) ∈ ms) ∧ (idv.kind = .integer ∨ idv.kind = .string) := by
  rw [validate_obj_eq] at h
  cases hsc : scanU ms false false none with
  | error e => rw [hsc] at h; simp at h
  | ok trip =>
    obtain ⟨hj, hm, id⟩ := trip
    rw [hsc] at h
    replace h : (if hj = false
        then (Except.error msgJsonrpcRequired : Except String (Option Json))
        else if hm = false then .error msgMethodRequired else .ok id) = .ok (some idv) := h
    by_cases hjf : hj = false
    · rw [if_pos hjf] at h
      exact Except.noConfusion h
    · rw [if_neg hjf] at h
      by_cases hmf : hm = false
      · rw [if_pos hmf] at h
        exact Except.noConfusion h
      · rw [if_neg hmf] at h
        injection h with h4
        rcases scanU_some_id ms false false none hj hm idv (by rw [hsc, h4]) with hid | hgood
        · exact Option.noConfusion hid
        · exact hgood

theorem validate_badMember_err {ms : List (Txt × Json)}
    (hbad : ms.all memberOkB = false) :
    ∃ e, validate_json_rpc_request (.obj ms) = .error e ∧
      (e = msgNotString ∨ e = msgVersion ∨ e = msgIdType ∨ e = msgMethodType ∨
        e = msgParamsType) := by
  cases hsc : scanU ms false false none with
  | error e =>
    refine ⟨e, ?_, scanU_err_msgs ms false false none e hsc⟩
    rw [validate_obj_eq, hsc]
  | ok trip =>
    have h2 := scanU_isOk ms false false none
    rw [hsc, hbad] at h2
    simp [isOk_ok] at h2

theorem validate_client_agree (v : Json) (hr : jsonIdsInRange v = true) :
    ((validate_json_rpc_request v).isOk = (validate_request_and_parse_id v).isOk) ∧
      ∀ rU rC, validate_json_rpc_request v = .ok rU →
        validate_request_and_parse_id v = .ok rC → rU.isSome = rC.isSome := by
  cases v with
  | obj ms =>
    have hrange : ms.all idInRange = true := by simpa [jsonIdsInRange] using hr
    by_cases hall : ms.all memberOkB = true
    · constructor
      · rw [validate_obj_eq, validateC_obj_eq, scanU_ok_val ms false false none hall,
          scanC_ok_val ms false false none hall hrange]
        show (if (false || hasKey keyJsonrpc ms) = false
              then (Except.error msgJsonrpcRequired : Except String (Option Json))
              else if (false || hasKey keyMethod ms) = false
                then Except.error msgMethodRequired
                else Except.ok (idFold none ms)).isOk
            = (if (false || hasKey keyJsonrpc ms) = false
              then (Except.error msgJsonrpcRequired : Except String (Option RequestId))
              else if (false || hasKey keyMethod ms) = false
                then Except.error msgMethodRequired
                else Except.ok (idFoldC none ms)).isOk
        by_cases hj : (false || hasKey keyJsonrpc ms) = false
        · rw [if_pos hj, if_pos hj]
          rfl
        · rw [if_neg hj, if_neg hj]
          by_cases hm : (false || hasKey keyMethod ms) = false
          · rw [if_pos hm, if_pos hm]
            rfl
          · rw [if_neg hm, if_neg hm]
            rfl
      · intro rU rC hU hC
        rw [validate_obj_eq, scanU_ok_val ms false false none hall] at hU
        rw [validateC_obj_eq, scanC_ok_val ms false false none hall hrange] at hC
        have hU3 : (if (false || hasKey keyJsonrpc ms) = false
              then (Except.error msgJsonrpcRequired : Except String (Option Json))
              else if (false || hasKey keyMethod ms) = false
                then Except.error msgMethodRequired
                else Except.ok (idFold none ms)) = Except.ok rU := hU
        have hC3 : (if (false || hasKey keyJsonrpc ms) = false
              then (Except.error msgJsonrpcRequired : Except String (Option RequestId))
              else if (false || hasKey keyMethod ms) = false
                then Except.error msgMethodRequired
                else Except.ok (idFoldC none ms)) = Except.ok rC := hC
        by_cases hj : (false || hasKey keyJsonrpc ms) = false
        · rw [if_pos hj] at hU3
          exact Except.noConfusion hU3
        · rw [if_neg hj] at hU3 hC3
          by_cases hm : (false || hasKey keyMethod ms) = false
          · rw [if_pos hm] at hU3
            exact Except.noConfusion hU3
          · rw [if_neg hm] at hU3 hC3
            injection hU3 with hU2
            injection hC3 with hC2
            subst hU2
            subst hC2
            rw [idFold_isSome, idFoldC_isSome]
            rfl
    · have hbad : ms.all memberOkB = false := by simpa using hall
      constructor
      · obtain ⟨eU, heU, _⟩ := validate_badMember_err hbad
        have hCerr : ∃ e, scanC ms false false none = .error e := by
          cases hsc : scanC ms false false none with
          | error e => exact ⟨e, rfl⟩
          | ok trip =>
            have h2 := scanC_isOk_of_inRange ms false false none hrange
            rw [hsc, hbad] at h2
            simp [isOk_ok] at h2
        obtain ⟨eC, heC⟩ := hCerr
        rw [heU, validateC_obj_eq, heC]
        rfl
      · intro rU rC hU hC
        obtain ⟨eU, heU, _⟩ := validate_badMember_err hbad
        rw [heU] at hU
        exact Except.noConfusion hU
  | null => exact ⟨rfl, by intro rU rC hU hC; exact Except.noConfusion hU⟩
  | bool b => exact ⟨rfl, by intro rU rC hU hC; exact Except.noConfusion hU⟩
  | int n => exact ⟨rfl, by intro rU rC hU hC; exact Except.noConfusion hU⟩
  | float raw => exact ⟨rfl, by intro rU rC hU hC; exact Except.noConfusion hU⟩
  | str s => exact ⟨rfl, by intro rU rC hU hC; exact Except.noConfusion hU⟩
  | arr es => exact ⟨rfl, by intro rU rC hU hC; exact Except.noConfusion hU⟩

/-! Lemmas about the modelled parser: every value it produces is free of
raw newline characters. -/

theorem strOkChar_ne_nl {c : Char} (h : strOkChar c = true) : c ≠ nlChar := by
  rintro rfl
  exact absurd h (by decide)

theorem parseStringBody_no_nl {t s r : Txt} (h : parseStringBody t = some (s, r)) :
    s.all (fun c => c != nlChar) = true := by
  have hs : s = t.takeWhile strOkChar := by
    unfold parseStringBody at h
    cases hd : t.dropWhile strOkChar with
    | nil => rw [hd] at h; simp at h
    | cons c rest =>
      rw [hd] at h
      by_cases hc : c = quChar
      · simp [hc] at h
        exact h.1.symm
      · simp [hc] at h
  subst hs
  rw [List.all_eq_true]
  intro c hc2
  have hok := List.mem_takeWhile_imp hc2
  simpa using strOkChar_ne_nl hok

theorem parseQuoted_no_nl {t s r : Txt} (h : parseQuoted t = some (s, r)) :
    s.all (fun c => c != nlChar) = true := by
  unfold parseQuoted at h
  cases hsk : skipWs t with
  | nil => rw [hsk] at h; simp at h
  | cons c rest =>
    rw [hsk] at h
    by_cases hc : c = quChar
    · simp [hc] at h
      exact parseStringBody_no_nl h
    · simp [hc] at h

theorem parseNumber_int {t : Txt} {j : Json} {r : Txt}
    (h : parseNumber t = some (j, r)) : ∃ n, j = .int n := by
  unfold parseNumber at h
  rw [Option.map_eq_some'] at h
  obtain ⟨p, _, hf⟩ := h
  have hj := congrArg Prod.fst hf
  exact ⟨p.1, hj.symm⟩

theorem parse_noNl : ∀ fuel : Nat,
    (∀ t j r, parseVal fuel t = some (j, r) → jsonNoNl j = true) ∧
    (∀ t js r, parseElems fuel t = some (js, r) → jsonsNoNl js = true) ∧
    (∀ t ms r, parseMembers fuel t = some (ms, r) → membersNoNl ms = true) := by
  intro fuel
  induction fuel with
  | zero =>
    refine ⟨?_, ?_, ?_⟩ <;> intro t x r h <;>
      simp [parseVal, parseElems, parseMembers] at h
  | succ n ih =>
    obtain ⟨ihV, ihE, ihM⟩ := ih
    refine ⟨?_, ?_, ?_⟩
    · intro t j r h
      unfold parseVal at h
      cases hsk : skipWs t with
      | nil => rw [hsk] at h; simp at h
      | cons c rest =>
        rw [hsk] at h
        replace h : (if c = quChar
            then Option.map (fun p => (Json.str p.1, p.2)) (parseStringBody rest)
            else if c = lbChar then
              match skipWs rest with
              | c2 :: r2 =>
                if c2 = rbChar then some (Json.obj [], r2)
                else Option.map (fun p => (Json.obj p.1, p.2)) (parseMembers n rest)
              | [] => none
            else if c = '[' then
              match skipWs rest with
              | c2 :: r2 =>
                if c2 = ']' then some (Json.arr [], r2)
                else Option.map (fun p => (Json.arr p.1, p.2)) (parseElems n rest)
              | [] => none
            else if c = 'n' then
              if rest.take 3 = "ull".data then some (Json.null, rest.drop 3) else none
            else if c = 't' then
              if rest.take 3 = "rue".data then some (Json.bool true, rest.drop 3) else none
            else if c = 'f' then
              if rest.take 4 = "alse".data then some (Json.bool false, rest.drop 4) else none
            else parseNumber (c :: rest)) = some (j, r) := h
        by_cases h1 : c = quChar
        · subst h1
          rw [if_pos rfl] at h
          rw [Option.map_eq_some'] at h
          obtain ⟨p, hps, hf⟩ := h
          have hj : Json.str p.1 = j := congrArg Prod.fst hf
          rw [← hj]
          have hp2 : parseStringBody rest = some (p.1, p.2) := hps
          simpa [jsonNoNl] using parseStringBody_no_nl hp2
        · by_cases h2 : c = lbChar
          · subst h2
            rw [if_neg h1, if_pos rfl] at h
            cases hsk2 : skipWs rest with
            | nil => rw [hsk2] at h; simp at h
            | cons c2 r2 =>
              rw [hsk2] at h
              have h3 : (if c2 = rbChar then some (Json.obj [], r2)
                  else Option.map (fun p => (Json.obj p.1, p.2)) (parseMembers n rest))
                  = some (j, r) := h
              by_cases h4 : c2 = rbChar
              · rw [if_pos h4] at h3
                injection h3 with h5
                have hj : Json.obj [] = j := congrArg Prod.fst h5
                rw [← hj]
                simp [jsonNoNl, membersNoNl]
              · rw [if_neg h4, Option.map_eq_some'] at h3
                obtain ⟨p, hpm, hf⟩ := h3
                have hj : Json.obj p.1 = j := congrArg Prod.fst hf
                rw [← hj]
                have hp2 : parseMembers n rest = some (p.1, p.2) := hpm
                simpa [jsonNoNl] using ihM rest p.1 p.2 hp2
          · by_cases h3 : c = '['
            · subst h3
              rw [if_neg h1, if_neg h2, if_pos rfl] at h
              cases hsk2 : skipWs rest with
              | nil => rw [hsk2] at h; simp at h
              | cons c2 r2 =>
                rw [hsk2] at h
                have h4 : (if c2 = ']' then some (Json.arr [], r2)
                    else Option.map (fun p => (Json.arr p.1, p.2)) (parseElems n rest))
                    = some (j, r) := h
                by_cases h5 : c2 = ']'
                · rw [if_pos h5] at h4
                  injection h4 with h6
                  have hj : Json.arr [] = j := congrArg Prod.fst h6
                  rw [← hj]
                  simp [jsonNoNl, jsonsNoNl]
                · rw [if_neg h5, Option.map_eq_some'] at h4
                  obtain ⟨p, hpe, hf⟩ := h4
                  have hj : Json.arr p.1 = j := congrArg Prod.fst hf
                  rw [← hj]
                  have hp2 : parseElems n rest = some (p.1, p.2) := hpe
                  simpa [jsonNoNl] using ihE rest p.1 p.2 hp2
            · by_cases h4 : c = 'n'
              · subst h4
                rw [if_neg h1, if_neg h2, if_neg h3, if_pos rfl] at h
                by_cases h5 : rest.take 3 = "ull".data
                · rw [if_pos h5] at h
                  injection h with h6
                  have hj : Json.null = j := congrArg Prod.fst h6
                  rw [← hj]
                  simp [jsonNoNl]
                · rw [if_neg h5] at h
                  exact Option.noConfusion h
              · by_cases h5 : c = 't'
                · subst h5
                  rw [if_neg h1, if_neg h2, if_neg h3, if_neg h4, if_pos rfl] at h
                  by_cases h6 : rest.take 3 = "rue".data
                  · rw [if_pos h6] at h
                    injection h with h7
                    have hj : Json.bool true = j := congrArg Prod.fst h7
                    rw [← hj]
                    simp [jsonNoNl]
                  · rw [if_neg h6] at h
                    exact Option.noConfusion h
                · by_cases h6 : c = 'f'
                  · subst h6
                    rw [if_neg h1, if_neg h2, if_neg h3, if_neg h4, if_neg h5,
                      if_pos rfl] at h
                    by_cases h7 : rest.take 4 = "alse".data
                    · rw [if_pos h7] at h
                      injection h with h8
                      have hj : Json.bool false = j := congrArg Prod.fst h8
                      rw [← hj]
                      simp [jsonNoNl]
                    · rw [if_neg h7] at h
                      exact Option.noConfusion h
                  · rw [if_neg h1, if_neg h2, if_neg h3, if_neg h4, if_neg h5,
                      if_neg h6] at h
                    obtain ⟨k, hj⟩ := parseNumber_int h
                    subst hj
                    simp [jsonNoNl]
    · intro t js r h
      unfold parseElems at h
      rw [Option.bind_eq_some] at h
      obtain ⟨jr, hv, h⟩ := h
      cases hsk : skipWs jr.2 with
      | nil => rw [hsk] at h; simp at h
      | cons c r2 =>
        rw [hsk] at h
        have h2 : (if c = ',' then Option.map (fun p => (jr.1 :: p.1, p.2)) (parseElems n r2)
            else if c = ']' then some ([jr.1], r2) else none) = some (js, r) := h
        have hv2 : parseVal n t = some (jr.1, jr.2) := hv
        have hh1 := ihV t jr.1 jr.2 hv2
        by_cases h1 : c = ','
        · rw [if_pos h1, Option.map_eq_some'] at h2
          obtain ⟨p, hpe, hf⟩ := h2
          have hjs : jr.1 :: p.1 = js := congrArg Prod.fst hf
          rw [← hjs]
          have hp2 : parseElems n r2 = some (p.1, p.2) := hpe
          have hh2 := ihE r2 p.1 p.2 hp2
          simp [jsonsNoNl, hh1, hh2]
        · rw [if_neg h1] at h2
          by_cases h3 : c = ']'
          · rw [if_pos h3] at h2
            injection h2 with h4
            have hjs : [jr.1] = js := congrArg Prod.fst h4
            rw [← hjs]
            simp [jsonsNoNl, hh1]
          · rw [if_neg h3] at h2
            exact Option.noConfusion h2
    · intro t ms r h
      unfold parseMembers at h
      rw [Option.bind_eq_some] at h
      obtain ⟨nr, hq, h⟩ := h
      rw [Option.bind_eq_some] at h
      obtain ⟨r3, hcol, h⟩ := h
      rw [Option.bind_eq_some] at h
      obtain ⟨vr, hv, h⟩ := h
      cases hsk : skipWs vr.2 with
      | nil => rw [hsk] at h; simp at h
      | cons c3 r5 =>
        rw [hsk] at h
        have h2 : (if c3 = ','
            then Option.map (fun p => ((nr.1, vr.1) :: p.1, p.2)) (parseMembers n r5)
            else if c3 = rbChar then some ([(nr.1, vr.1)], r5) else none)
            = some (ms, r) := h
        have hq2 : parseQuoted t = some (nr.1, nr.2) := hq
        have hh1 := parseQuoted_no_nl hq2
        have hv2 : parseVal n r3 = some (vr.1, vr.2) := hv
        have hh2 := ihV r3 vr.1 vr.2 hv2
        by_cases h1 : c3 = ','
        · rw [if_pos h1, Option.map_eq_some'] at h2
          obtain ⟨p, hpm, hf⟩ := h2
          have hms : (nr.1, vr.1) :: p.1 = ms := congrArg Prod.fst hf
          rw [← hms]
          have hp2 : parseMembers n r5 = some (p.1, p.2) := hpm
          have hh3 := ihM r5 p.1 p.2 hp2
          simp [membersNoNl, hh1, hh2, hh3]
        · rw [if_neg h1] at h2
          by_cases h3 : c3 = rbChar
          · rw [if_pos h3] at h2
            injection h2 with h4
            have hms : [(nr.1, vr.1)] = ms := congrArg Prod.fst h4
            rw [← hms]
            simp [membersNoNl, hh1, hh2]
          · rw [if_neg h3] at h2
            exact Option.noConfusion h2

theorem parseJson_noNl {t : Txt} {j : Json} (h : parseJson t = some j) :
    jsonNoNl j = true := by
  unfold parseJson at h
  cases hp : parseVal (t.length + 1) t with
  | none => rw [hp] at h; simp at h
  | some jr =>
    rw [hp] at h
    have h2 : (if skipWs jr.2 = [] then some jr.1 else none) = some j := h
    by_cases hr : skipWs jr.2 = []
    · rw [if_pos hr] at h2
      injection h2 with h3
      rw [← h3]
      exact (parse_noNl (t.length + 1)).1 t jr.1 jr.2 (by rw [hp])
    · rw [if_neg hr] at h2
      exact Option.noConfusion h2

/-! Lemmas about the rendered id and the echo response text. -/

theorem membersNoNl_value : ∀ {ms : List (Txt × Json)} {n : Txt} {v : Json},
    membersNoNl ms = true → (n, v) ∈ ms → jsonNoNl v = true := by
  intro ms
  induction ms with
  | nil => intro n v _ hm; simp at hm
  | cons m rest ih =>
    intro n v h hm
    rw [show membersNoNl (m :: rest)
        = ((m.1.all fun c => c != nlChar) && jsonNoNl m.2 && membersNoNl rest) from rfl] at h
    simp only [Bool.and_eq_true] at h
    rcases List.mem_cons.mp hm with hm | hm
    · have h5 : v = m.2 := congrArg Prod.snd hm
      rw [h5]
      exact h.1.2
    · exact ih h.2 hm

theorem str_noNl_not_mem {s : Txt} (h : (s.all fun c => c != nlChar) = true) :
    nlChar ∉ s := by
  intro hmem
  have h2 := List.all_eq_true.mp h _ hmem
  simp at h2

theorem digitChar_ne_nl : ∀ d : Nat, d < 10 → digitChar d ≠ nlChar := by decide

theorem natToDigitsCore_no_nl : ∀ (fuel n : Nat) (acc : Txt),
    nlChar ∉ acc → nlChar ∉ natToDigitsCore fuel n acc := by
  intro fuel
  induction fuel with
  | zero => intro n acc h; simpa [natToDigitsCore] using h
  | succ f ih =>
    intro n acc h
    have hd : nlChar ∉ digitChar (n % 10) :: acc := by
      intro hmem
      rcases List.mem_cons.mp hmem with hmem | hmem
      · exact digitChar_ne_nl (n % 10) (Nat.mod_lt _ (by decide)) hmem.symm
      · exact h hmem
    unfold natToDigitsCore
    by_cases hn : n < 10
    · rw [if_pos hn]
      exact hd
    · rw [if_neg hn]
      exact ih _ _ hd

theorem natToTxt_no_nl (n : Nat) : nlChar ∉ natToTxt n :=
  natToDigitsCore_no_nl _ _ [] (by simp)

theorem intToTxt_no_nl (n : Int) : nlChar ∉ intToTxt n := by
  unfold intToTxt
  by_cases hn : n < 0
  · rw [if_pos hn]
    intro hmem
    rcases List.mem_cons.mp hmem with hmem | hmem
    · exact absurd hmem (by decide)
    · exact natToTxt_no_nl _ hmem
  · rw [if_neg hn]
    exact natToTxt_no_nl _

theorem encodeId_no_nl {idv : Json} (h : jsonNoNl idv = true)
    (hk : idv.kind = .integer ∨ idv.kind = .string) : nlChar ∉ encodeId idv := by
  cases idv with
  | int k => exact intToTxt_no_nl k
  | str s =>
    show nlChar ∉ quChar :: (s ++ [quChar])
    intro hmem
    rcases List.mem_cons.mp hmem with hmem | hmem
    · exact absurd hmem (by decide)
    · rcases List.mem_append.mp hmem with hmem | hmem
      · exact str_noNl_not_mem (by simpa [jsonNoNl] using h) hmem
      · rw [List.mem_singleton] at hmem
        exact absurd hmem (by decide)
  | null => rcases hk with hk | hk <;> simp [Json.kind] at hk
  | bool b => rcases hk with hk | hk <;> simp [Json.kind] at hk
  | float raw => rcases hk with hk | hk <;> simp [Json.kind] at hk
  | arr es => rcases hk with hk | hk <;> simp [Json.kind] at hk
  | obj ms => rcases hk with hk | hk <;> simp [Json.kind] at hk

theorem echoText_no_nl {idv : Json} {line : Txt} (hid : nlChar ∉ encodeId idv)
    (hline : nlChar ∉ line) : nlChar ∉ echoText idv line := by
  unfold echoText
  intro hmem
  rcases List.mem_append.mp hmem with hmem | hmem
  · rcases List.mem_append.mp hmem with hmem | hmem
    · rcases List.mem_append.mp hmem with hmem | hmem
      · rcases List.mem_append.mp hmem with hmem | hmem
        · exact absurd hmem (by decide)
        · exact hid hmem
      · exact absurd hmem (by decide)
    · exact hline hmem
  · rw [List.mem_singleton] at hmem
    exact absurd hmem (by decide)

theorem echoText_ne_nil (idv : Json) (line : Txt) : echoText idv line ≠ [] := by
  intro h
  have h2 : (echoText idv line).isEmpty = ([] : Txt).isEmpty := congrArg List.isEmpty h
  have h3 : (echoText idv line).isEmpty = false := rfl
  rw [h3] at h2
  exact Bool.noConfusion h2

/-! Lemmas about the echo server per-line action and loop. -/

theorem serverLineOut_entry_inv {cap : Nat} {line t : Txt}
    (h : serverLineOut cap line = .entry t) :
    ∃ j idv, parseJson line = some j ∧ parse_request j = .ok (some idv) ∧
      t = echoText idv line ∧ utf8Len t ≤ cap := by
  unfold serverLineOut at h
  cases hp : parseJson line with
  | none => rw [hp] at h; simp at h
  | some j =>
    rw [hp] at h
    replace h : (match parse_request j with
        | .error e => LineAct.reply (errReplyJson (-32600) e)
        | .ok none => LineAct.skip
        | .ok (some idv) =>
          if utf8Len (echoText idv line) > cap
            then LineAct.reply (errReplyJson (-32603) msgOversize)
            else LineAct.entry (echoText idv line)) = .entry t := h
    cases hv : parse_request j with
    | error e => rw [hv] at h; exact LineAct.noConfusion h
    | ok idOpt =>
      rw [hv] at h
      cases idOpt with
      | none => exact LineAct.noConfusion h
      | some idv =>
        replace h : (if utf8Len (echoText idv line) > cap
            then LineAct.reply (errReplyJson (-32603) msgOversize)
            else LineAct.entry (echoText idv line)) = .entry t := h
        by_cases hsz : utf8Len (echoText idv line) > cap
        · rw [if_pos hsz] at h
          exact LineAct.noConfusion h
        · rw [if_neg hsz] at h
          injection h with h2
          exact ⟨j, idv, rfl, hv, h2.symm, by rw [← h2]; exact Nat.le_of_not_lt hsz⟩

theorem serverLineOut_entry_props {cap : Nat} {line t : Txt}
    (h : serverLineOut cap line = .entry t) (hline : nlChar ∉ line) :
    nlChar ∉ t ∧ t ≠ [] ∧ utf8Len t ≤ cap := by
  obtain ⟨j, idv, hp, hv, ht, hsz⟩ := serverLineOut_entry_inv h
  have hjn : jsonNoNl j = true := parseJson_noNl hp
  have hv2 : validate_json_rpc_request j = .ok (some idv) := by
    rw [← parse_request_eq_validate]
    exact hv
  obtain ⟨ms, rfl⟩ := validate_ok_obj hv2
  obtain ⟨⟨n2, hmem⟩, hkind⟩ := validate_ok_some_id hv2
  have hidn : jsonNoNl idv = true :=
    membersNoNl_value (by simpa [jsonNoNl] using hjn) hmem
  have henc : nlChar ∉ encodeId idv := encodeId_no_nl hidn hkind
  subst ht
  exact ⟨echoText_no_nl henc hline, echoText_ne_nil idv line, hsz⟩

theorem flushedPayloads_append (a b : List SEv) :
    flushedPayloads (a ++ b) = flushedPayloads a ++ flushedPayloads b := by
  unfold flushedPayloads
  rw [List.filterMap_append]

theorem flushedEntries_append (a b : List SEv) :
    flushedEntries (a ++ b) = flushedEntries a ++ flushedEntries b := by
  unfold flushedEntries
  rw [flushedPayloads_append, List.map_append, List.flatten_append]

theorem flushedEntries_reply (j : Json) : flushedEntries [SEv.reply j] = [] := rfl

theorem flushedEntries_dgram (p : Txt) : flushedEntries [SEv.dgram p] = splitNl p := by
  simp [flushedEntries, flushedPayloads]

theorem entriesOfLines_cons (cap : Nat) (l : Txt) (rest : List Txt) :
    entriesOfLines cap (l :: rest)
      = entriesOfLines cap [l] ++ entriesOfLines cap rest := by
  unfold entriesOfLines
  rw [show (l :: rest) = [l] ++ rest from rfl, List.filterMap_append]

theorem entriesOfLines_reply {cap : Nat} {l : Txt} {j : Json}
    (h : serverLineOut cap l = .reply j) : entriesOfLines cap [l] = [] := by
  simp [entriesOfLines, h]

theorem entriesOfLines_skip {cap : Nat} {l : Txt}
    (h : serverLineOut cap l = .skip) : entriesOfLines cap [l] = [] := by
  simp [entriesOfLines, h]

theorem entriesOfLines_entry {cap : Nat} {l t : Txt}
    (h : serverLineOut cap l = .entry t) : entriesOfLines cap [l] = [t] := by
  simp [entriesOfLines, h]

theorem serverStep_reply {cap : Nat} {st : ServerSt} {line : Txt} {j : Json}
    (h : serverLineOut cap line = .reply j) :
    serverStep cap st line = .ok { st with evs := st.evs ++ [.reply j] } := by
  unfold serverStep
  rw [h]

theorem serverStep_skip {cap : Nat} {st : ServerSt} {line : Txt}
    (h : serverLineOut cap line = .skip) : serverStep cap st line = .ok st := by
  unfold serverStep
  rw [h]

theorem serverStep_entry_flush {cap : Nat} {st : ServerSt} {line t : Txt}
    (h : serverLineOut cap line = .entry t)
    (hc : st.buf ≠ [] ∧ utf8Len st.buf + 1 + utf8Len t > cap)
    (hsent : (takeSent st.oracle (utf8Len st.buf)).1 = utf8Len st.buf) :
    serverStep cap st line
      = .ok { buf := t, evs := st.evs ++ [.dgram st.buf],
              oracle := (takeSent st.oracle (utf8Len st.buf)).2 } := by
  unfold serverStep
  rw [h]
  show (if st.buf ≠ [] ∧ utf8Len st.buf + 1 + utf8Len t > cap then _ else _) = _
  rw [if_pos hc, if_neg (by simpa using hsent)]

theorem serverStep_entry_short {cap : Nat} {st : ServerSt} {line t : Txt}
    (h : serverLineOut cap line = .entry t)
    (hc : st.buf ≠ [] ∧ utf8Len st.buf + 1 + utf8Len t > cap)
    (hsent : (takeSent st.oracle (utf8Len st.buf)).1 ≠ utf8Len st.buf) :
    serverStep cap st line = .error msgShortSend := by
  unfold serverStep
  rw [h]
  show (if st.buf ≠ [] ∧ utf8Len st.buf + 1 + utf8Len t > cap then _ else _) = _
  rw [if_pos hc, if_pos hsent]

theorem serverStep_entry_noflush {cap : Nat} {st : ServerSt} {line t : Txt}
    (h : serverLineOut cap line = .entry t)
    (hc : ¬(st.buf ≠ [] ∧ utf8Len st.buf + 1 + utf8Len t > cap)) :
    serverStep cap st line
      = .ok { st with buf := if st.buf = [] then t else st.buf ++ nlChar :: t } := by
  unfold serverStep
  rw [h]
  show (if st.buf ≠ [] ∧ utf8Len st.buf + 1 + utf8Len t > cap then _ else _) = _
  rw [if_neg hc]

theorem serverStep_ok_entries {cap : Nat} {st st2 : ServerSt} {line : Txt}
    (h : serverStep cap st line = .ok st2) (hline : nlChar ∉ line) :
    flushedEntries st2.evs ++ bufEntries st2.buf
      = flushedEntries st.evs ++ bufEntries st.buf ++ entriesOfLines cap [line] := by
  cases ha : serverLineOut cap line with
  | reply j =>
    rw [serverStep_reply ha] at h
    injection h with h2
    subst h2
    simp [flushedEntries_append, flushedEntries_reply, entriesOfLines_reply ha]
  | skip =>
    rw [serverStep_skip ha] at h
    injection h with h2
    subst h2
    simp [entriesOfLines_skip ha]
  | entry t =>
    obtain ⟨hnl, hne, hsz⟩ := serverLineOut_entry_props ha hline
    rw [entriesOfLines_entry ha]
    by_cases hc : st.buf ≠ [] ∧ utf8Len st.buf + 1 + utf8Len t > cap
    · by_cases hsent : (takeSent st.oracle (utf8Len st.buf)).1 = utf8Len st.buf
      · rw [serverStep_entry_flush ha hc hsent] at h
        injection h with h2
        subst h2
        simp [flushedEntries_append, flushedEntries_dgram, bufEntries_single hne hnl,
          bufEntries_of_ne hc.1, List.append_assoc]
      · rw [serverStep_entry_short ha hc hsent] at h
        exact Except.noConfusion h
    · rw [serverStep_entry_noflush ha hc] at h
      injection h with h2
      subst h2
      by_cases hb : st.buf = []
      · rw [if_pos hb, hb, bufEntries_nil, bufEntries_single hne hnl]
        simp
      · rw [if_neg hb, bufEntries_append_entry hb hnl]
        simp [List.append_assoc]

theorem serverStep_ok_caps {cap : Nat} {st st2 : ServerSt} {line : Txt}
    (h : serverStep cap st line = .ok st2) (hbuf : utf8Len st.buf ≤ cap)
    (hfl : ∀ p ∈ flushedPayloads st.evs, utf8Len p ≤ cap) :
    utf8Len st2.buf ≤ cap ∧ ∀ p ∈ flushedPayloads st2.evs, utf8Len p ≤ cap := by
  cases ha : serverLineOut cap line with
  | reply j =>
    rw [serverStep_reply ha] at h
    injection h with h2
    subst h2
    refine ⟨hbuf, ?_⟩
    intro p hp
    rw [flushedPayloads_append] at hp
    rcases List.mem_append.mp hp with hp | hp
    · exact hfl p hp
    · simp [flushedPayloads] at hp
  | skip =>
    rw [serverStep_skip ha] at h
    injection h with h2
    subst h2
    exact ⟨hbuf, hfl⟩
  | entry t =>
    obtain ⟨j, idv, _, _, _, hsz⟩ := serverLineOut_entry_inv ha
    by_cases hc : st.buf ≠ [] ∧ utf8Len st.buf + 1 + utf8Len t > cap
    · by_cases hsent : (takeSent st.oracle (utf8Len st.buf)).1 = utf8Len st.buf
      · rw [serverStep_entry_flush ha hc hsent] at h
        injection h with h2
        subst h2
        refine ⟨hsz, ?_⟩
        intro p hp
        rw [flushedPayloads_append] at hp
        rcases List.mem_append.mp hp with hp | hp
        · exact hfl p hp
        · simp [flushedPayloads] at hp
          rw [hp]
          exact hbuf
      · rw [serverStep_entry_short ha hc hsent] at h
        exact Except.noConfusion h
    · rw [serverStep_entry_noflush ha hc] at h
      injection h with h2
      subst h2
      refine ⟨?_, hfl⟩
      by_cases hb : st.buf = []
      · rw [if_pos hb]
        exact hsz
      · rw [if_neg hb, utf8Len_append]
        have h1 : utf8Len (nlChar :: t) = 1 + utf8Len t := by
          simp [utf8Len, nl_utf8Size]
        rw [h1]
        rw [not_and] at hc
        have h3 := hc hb
        omega

theorem serverLoop_entries {cap : Nat} : ∀ {lines : List Txt} {st st2 : ServerSt},
    (∀ l ∈ lines, nlChar ∉ l) → serverLoop cap st lines = .ok st2 →
    flushedEntries st2.evs ++ bufEntries st2.buf
      = flushedEntries st.evs ++ bufEntries st.buf ++ entriesOfLines cap lines := by
  intro lines
  induction lines with
  | nil =>
    intro st st2 _ h
    injection h with h2
    subst h2
    simp [entriesOfLines]
  | cons l rest ih =>
    intro st st2 hnl h
    unfold serverLoop at h
    cases hs : serverStep cap st l with
    | error e => rw [hs] at h; simp at h
    | ok stm =>
      rw [hs] at h
      have h2 : serverLoop cap stm rest = .ok st2 := h
      have e1 := serverStep_ok_entries hs (hnl l (List.mem_cons_self _ _))
      have e2 := ih (fun x hx => hnl x (List.mem_cons_of_mem _ hx)) h2
      rw [e2, e1, entriesOfLines_cons cap l rest]
      simp [List.append_assoc]

theorem serverLoop_caps {cap : Nat} : ∀ {lines : List Txt} {st st2 : ServerSt},
    serverLoop cap st lines = .ok st2 →
    utf8Len st.buf ≤ cap → (∀ p ∈ flushedPayloads st.evs, utf8Len p ≤ cap) →
    utf8Len st2.buf ≤ cap ∧ ∀ p ∈ flushedPayloads st2.evs, utf8Len p ≤ cap := by
  intro lines
  induction lines with
  | nil =>
    intro st st2 h hb hf
    injection h with h2
    subst h2
    exact ⟨hb, hf⟩
  | cons l rest ih =>
    intro st st2 h hb hf
    unfold serverLoop at h
    cases hs : serverStep cap st l with
    | error e => rw [hs] at h; simp at h
    | ok stm =>
      rw [hs] at h
      have h2 : serverLoop cap stm rest = .ok st2 := h
      obtain ⟨hb2, hf2⟩ := serverStep_ok_caps hs hb hf
      exact ih h2 hb2 hf2

theorem serverFinish_entries {st : ServerSt} {evs : List SEv}
    (h : serverFinish st = .ok evs) :
    flushedEntries evs = flushedEntries st.evs ++ bufEntries st.buf := by
  unfold serverFinish at h
  by_cases hb : st.buf = []
  · rw [if_pos hb] at h
    injection h with h2
    subst h2
    rw [hb, bufEntries_nil]
    simp
  · rw [if_neg hb] at h
    by_cases hsent : (takeSent st.oracle (utf8Len st.buf)).1 ≠ utf8Len st.buf
    · rw [if_pos hsent] at h
      exact Except.noConfusion h
    · rw [if_neg hsent] at h
      injection h with h2
      subst h2
      rw [flushedEntries_append, flushedEntries_dgram, bufEntries_of_ne hb]

theorem serverFinish_caps {cap : Nat} {st : ServerSt} {evs : List SEv}
    (h : serverFinish st = .ok evs) (hbuf : utf8Len st.buf ≤ cap)
    (hfl : ∀ p ∈ flushedPayloads st.evs, utf8Len p ≤ cap) :
    ∀ p ∈ flushedPayloads evs, utf8Len p ≤ cap := by
  unfold serverFinish at h
  by_cases hb : st.buf = []
  · rw [if_pos hb] at h
    injection h with h2
    subst h2
    exact hfl
  · rw [if_neg hb] at h
    by_cases hsent : (takeSent st.oracle (utf8Len st.buf)).1 ≠ utf8Len st.buf
    · rw [if_pos hsent] at h
      exact Except.noConfusion h
    · rw [if_neg hsent] at h
      injection h with h2
      subst h2
      intro p hp
      rw [flushedPayloads_append] at hp
      rcases List.mem_append.mp hp with hp | hp
      · exact hfl p hp
      · simp [flushedPayloads] at hp
        rw [hp]
        exact hbuf

theorem serverDatagram_ok_elim {cap : Nat} {text : Txt} {oracle : List Nat}
    {evs : List SEv} (h : serverDatagram cap text oracle = .ok evs) :
    ∃ st : ServerSt, serverLoop cap ⟨[], [], oracle⟩ (rustLines text) = .ok st ∧
      serverFinish st = .ok evs := by
  unfold serverDatagram at h
  cases hl : serverLoop cap ⟨[], [], oracle⟩ (rustLines text) with
  | error e => rw [hl] at h; simp at h
  | ok st =>
    rw [hl] at h
    exact ⟨st, rfl, h⟩

theorem serverLineOut_parse_fail {cap : Nat} {line : Txt} (h : parseJson line = none) :
    serverLineOut cap line = .reply (errReplyJson (-32700) msgParse) := by
  unfold serverLineOut
  rw [h]

theorem serverLineOut_invalid {cap : Nat} {line : Txt} {j : Json} {e : String}
    (hp : parseJson line = some j) (hv : parse_request j = .error e) :
    serverLineOut cap line = .reply (errReplyJson (-32600) e) := by
  unfold serverLineOut
  rw [hp]
  show (match parse_request j with
      | .error e => LineAct.reply (errReplyJson (-32600) e)
      | .ok none => LineAct.skip
      | .ok (some idv) =>
        if utf8Len (echoText idv line) > cap
          then LineAct.reply (errReplyJson (-32603) msgOversize)
          else LineAct.entry (echoText idv line)) = _
  rw [hv]

theorem serverLineOut_notification {cap : Nat} {line : Txt} {j : Json}
    (hp : parseJson line = some j) (hv : parse_request j = .ok none) :
    serverLineOut cap line = .skip := by
  unfold serverLineOut
  rw [hp]
  show (match parse_request j with
      | .error e => LineAct.reply (errReplyJson (-32600) e)
      | .ok none => LineAct.skip
      | .ok (some idv) =>
        if utf8Len (echoText idv line) > cap
          then LineAct.reply (errReplyJson (-32603) msgOversize)
          else LineAct.entry (echoText idv line)) = _
  rw [hv]

theorem serverLineOut_with_id {cap : Nat} {line : Txt} {j idv : Json}
    (hp : parseJson line = some j) (hv : parse_request j = .ok (some idv)) :
    serverLineOut cap line
      = if utf8Len (echoText idv line) > cap
        then .reply (errReplyJson (-32603) msgOversize)
        else .entry (echoText idv line) := by
  unfold serverLineOut
  rw [hp]
  show (match parse_request j with
      | .error e => LineAct.reply (errReplyJson (-32600) e)
      | .ok none => LineAct.skip
      | .ok (some idv) =>
        if utf8Len (echoText idv line) > cap
          then LineAct.reply (errReplyJson (-32603) msgOversize)
          else LineAct.entry (echoText idv line)) = _
  rw [hv]

theorem countP_pos_iff_any (p : Txt → Bool) (l : List Txt) :
    decide (0 < l.countP p) = l.any p := by
  by_cases h : l.any p = true
  · rw [h]
    rw [List.any_eq_true] at h
    obtain ⟨a, ha, hpa⟩ := h
    simpa using List.countP_pos_iff.mpr ⟨a, ha, hpa⟩
  · have h2 : l.any p = false := by simpa using h
    rw [h2]
    simp only [decide_eq_false_iff_not, Nat.not_lt, Nat.le_zero]
    rw [List.countP_eq_zero]
    intro a ha hpa
    exact h (List.any_eq_true.mpr ⟨a, ha, hpa⟩)

/-! Claim theorems. -/

/-- Claim C1: packing is lossless. For the client, a successful run
yields flushed datagrams (the final end-of-stream flush included) whose
per-datagram newline splits, concatenated in order, are exactly the
original input lines, so no entry is split across two datagrams. For
the server reply buffer likewise: the flushed reply datagrams split
back into exactly the sequence of response entries in order. -/
theorem claim_C1_packing_roundtrip :
    (∀ (cap : Nat) (lines : List Txt) (out : ClientOut),
      (∀ l ∈ lines, nlChar ∉ l) → clientRun cap lines = .ok out →
      (out.datagrams.map splitNl).flatten = lines) ∧
    (∀ (cap : Nat) (text : Txt) (evs : List SEv),
      serverDatagram cap text [] = .ok evs →
      ((flushedPayloads evs).map splitNl).flatten = entriesOfLines cap (rustLines text)) := by
  constructor
  · intro cap lines out hnl h
    obtain ⟨_, _, st, hloop, hds, _, _⟩ := clientRun_ok_elim h
    rw [hds, finalFlush_entries]
    have h2 := clientLoop_entries hnl hloop
    simpa using h2
  · intro cap text evs h
    obtain ⟨st, hloop, hfin⟩ := serverDatagram_ok_elim h
    have e1 := serverLoop_entries (fun l hl => mem_rustLines_no_nl hl) hloop
    have e2 := serverFinish_entries hfin
    show flushedEntries evs = _
    rw [e2]
    simpa using e1

/-- Witness for claim C1 at a concrete two-line input. -/
theorem claim_C1_witness :
    (([lineA ++ nlChar :: lineN] : List Txt).map splitNl).flatten = [lineA, lineN] :=
  claim_C1_packing_roundtrip.1 1200 [lineA, lineN]
    ⟨[lineA ++ nlChar :: lineN], 1, true⟩ (by decide) (by rfl)

/-- Claim C2: the packing buffer never exceeds the configured capacity,
and every datagram handed to a send call fits in it. The first and
third parts quantify over every prefix of processed lines, so they
state the invariant at every point of a run; the second and fourth
parts cover every flushed datagram of a whole run, final flush
included. -/
theorem claim_C2_capacity_invariant :
    (∀ (cap : Nat) (lines : List Txt) (st : ClientSt),
      clientLoop cap ⟨[], [], 0⟩ lines = .ok st →
      utf8Len st.buf ≤ cap ∧ ∀ d ∈ st.dgrams, utf8Len d ≤ cap) ∧
    (∀ (cap : Nat) (lines : List Txt) (out : ClientOut),
      clientRun cap lines = .ok out → ∀ d ∈ out.datagrams, utf8Len d ≤ cap) ∧
    (∀ (cap : Nat) (lines : List Txt) (oracle : List Nat) (st : ServerSt),
      serverLoop cap ⟨[], [], oracle⟩ lines = .ok st →
      utf8Len st.buf ≤ cap ∧ ∀ p ∈ flushedPayloads st.evs, utf8Len p ≤ cap) ∧
    (∀ (cap : Nat) (text : Txt) (oracle : List Nat) (evs : List SEv),
      serverDatagram cap text oracle = .ok evs →
      ∀ p ∈ flushedPayloads evs, utf8Len p ≤ cap) := by
  refine ⟨?_, ?_, ?_, ?_⟩
  · intro cap lines st h
    exact clientLoop_caps h (by simp [utf8Len]) (by simp)
  · intro cap lines out h
    obtain ⟨_, _, st, hloop, hds, _, _⟩ := clientRun_ok_elim h
    obtain ⟨hb, hd⟩ := clientLoop_caps hloop (by simp [utf8Len]) (by simp)
    rw [hds]
    exact finalFlush_caps hb hd
  · intro cap lines oracle st h
    exact serverLoop_caps h (by simp [utf8Len]) (by simp [flushedPayloads])
  · intro cap text oracle evs h
    obtain ⟨st, hloop, hfin⟩ := serverDatagram_ok_elim h
    obtain ⟨hb, hf⟩ := serverLoop_caps hloop (by simp [utf8Len]) (by simp [flushedPayloads])
    exact serverFinish_caps hfin hb hf

/-- Witness for claim C2 at a concrete run. -/
theorem claim_C2_witness :
    ∀ d ∈ (⟨[lineA ++ nlChar :: lineN], 1, true⟩ : ClientOut).datagrams,
      utf8Len d ≤ 1200 :=
  claim_C2_capacity_invariant.2.1 1200 [lineA, lineN]
    ⟨[lineA ++ nlChar :: lineN], 1, true⟩ (by rfl)

/-- Claim C3: request validation succeeds exactly on non-array JSON
objects whose jsonrpc member is the string 2.0, whose method member is
a string, whose id member (when present) is an integer or a string and
whose params member (when present) is an object or an array, other
member names being ignored; on success the result carries an id exactly
when an id member was present; and when some member is wrongly typed
the reported error is that scan error, never one of the two
missing-field errors, which are only raised after the full scan. -/
theorem claim_C3_validator_spec (v : Json) :
    ((validate_json_rpc_request v).isOk = specValidRequest v) ∧
    (∀ (ms : List (Txt × Json)) (r : Option Json), v = Json.obj ms →
      validate_json_rpc_request v = .ok r → r.isSome = hasKey keyId ms) ∧
    (∀ ms : List (Txt × Json), v = Json.obj ms → ms.all memberOkB = false →
      ∃ e, validate_json_rpc_request v = .error e ∧ e ≠ msgJsonrpcRequired ∧
        e ≠ msgMethodRequired) := by
  refine ⟨validate_isOk v, ?_, ?_⟩
  · intro ms r hobj h
    subst hobj
    exact (validate_ok_id h).2
  · intro ms hobj hbad
    subst hobj
    obtain ⟨e, he, hd⟩ := validate_badMember_err hbad
    refine ⟨e, he, ?_, ?_⟩ <;>
      rcases hd with h1 | h1 | h1 | h1 | h1 <;> subst h1 <;> decide

/-- Witness for claim C3 at a concrete valid request object. -/
theorem claim_C3_witness :
    (validate_json_rpc_request jsonB).isOk = specValidRequest jsonB ∧
      (some idB : Option Json).isSome = hasKey keyId
        [(keyJsonrpc, Json.str ("2.0".data)), (keyMethod, Json.str ("ping".data)),
          (keyId, idB)] :=
  ⟨(claim_C3_validator_spec jsonB).1,
    (claim_C3_validator_spec jsonB).2.1
      [(keyJsonrpc, Json.str ("2.0".data)), (keyMethod, Json.str ("ping".data)), (keyId, idB)]
      (some idB) rfl (by rfl)⟩

/-- Claim C4: on a successful client run, pending responses count
exactly the valid input lines carrying an id (notifications leave the
count unchanged), and the receive phase is entered exactly when that
count is positive, so an all-notification run completes without a
receive phase. -/
theorem claim_C4_pending (cap : Nat) (lines : List Txt) (out : ClientOut)
    (h : clientRun cap lines = .ok out) :
    out.pending = lines.countP lineHasId ∧ out.receivePhase = lines.any lineHasId := by
  obtain ⟨_, _, st, hloop, _, hp, hr⟩ := clientRun_ok_elim h
  have h2 := clientLoop_pending hloop
  simp only at h2
  constructor
  · rw [hp, h2]
    simp
  · rw [hr, h2]
    simp only [Nat.zero_add]
    exact countP_pos_iff_any lineHasId lines

/-- Witness for claim C4: one call plus one notification expects one
response; an all-notification run skips the receive phase. -/
theorem claim_C4_witness :
    ((⟨[lineA ++ nlChar :: lineN], 1, true⟩ : ClientOut).pending
        = ([lineA, lineN] : List Txt).countP lineHasId) ∧
      (⟨[lineN], 0, false⟩ : ClientOut).receivePhase
        = ([lineN] : List Txt).any lineHasId :=
  ⟨(claim_C4_pending 1200 [lineA, lineN] ⟨[lineA ++ nlChar :: lineN], 1, true⟩ (by rfl)).1,
    (claim_C4_pending 1200 [lineN] ⟨[lineN], 0, false⟩ (by rfl)).2⟩

/-- Claim C5: for a datagram line that parses and validates with an id,
the echo server builds the response text holding jsonrpc 2.0, the
request id rendered verbatim, and the original line text verbatim as
the result member (see echoText), and hands exactly that text to the
reply buffer when it fits; a valid notification line produces no
response entry at all. -/
theorem claim_C5_echo (cap : Nat) (line : Txt) (j : Json)
    (hp : parseJson line = some j) :
    (∀ idv : Json, parse_request j = .ok (some idv) →
      utf8Len (echoText idv line) ≤ cap →
      serverLineOut cap line = .entry (echoText idv line)) ∧
    (parse_request j = .ok none → serverLineOut cap line = .skip) := by
  constructor
  · intro idv hv hsz
    rw [serverLineOut_with_id hp hv, if_neg (Nat.not_lt.mpr hsz)]
  · intro hv
    exact serverLineOut_notification hp hv

/-- Witness for claim C5: spec scenario B, where the echoed response
text is exactly the text the spec displays. -/
theorem claim_C5_witness : serverLineOut 65507 lineB = LineAct.entry respB := by
  have h := (claim_C5_echo 65507 lineB jsonB (by rfl)).1 idB (by rfl) (by decide)
  rw [h]
  rfl

/-- Claim C6: per-line failures on the server are locally recoverable.
A line that fails JSON parsing makes the step succeed while appending
one error reply with code -32700, a line that fails validation (a
top-level array, for example) appends one error reply with code
-32600, and in both cases the reply buffer and the remaining state are
unchanged, so the loop continues with the sibling lines; every such
reply carries a null id. -/
theorem claim_C6_per_line_recovery (cap : Nat) (st : ServerSt) (line : Txt) :
    (parseJson line = none →
      serverStep cap st line
        = .ok ⟨st.buf, st.evs ++ [.reply (errReplyJson (-32700) msgParse)], st.oracle⟩) ∧
    (∀ (j : Json) (e : String), parseJson line = some j → parse_request j = .error e →
      serverStep cap st line
        = .ok ⟨st.buf, st.evs ++ [.reply (errReplyJson (-32600) e)], st.oracle⟩) ∧
    (∀ (code : Int) (msg : String),
      objMember keyId (errReplyJson code msg) = some .null) := by
  refine ⟨?_, ?_, ?_⟩
  · intro hp
    exact serverStep_reply (serverLineOut_parse_fail hp)
  · intro j e hp hv
    exact serverStep_reply (serverLineOut_invalid hp hv)
  · intro code msg
    rfl

/-- Witness for claim C6: spec scenario C, the top-level array line. -/
theorem claim_C6_witness :
    serverStep 65507 ⟨[], [], []⟩ arrLine
      = .ok ⟨[], [SEv.reply (errReplyJson (-32600) msgBatch)], []⟩ :=
  (claim_C6_per_line_recovery 65507 ⟨[], [], []⟩ arrLine).2.1
    (.arr [.int 1, .int 2]) msgBatch (by rfl) (by rfl)

/-- Claim C7: an entry whose byte length alone exceeds the capacity is
never placed in a buffer. The client raises a fatal error before any
append; the server answers with error code -32603 sent directly to the
peer, leaves the reply buffer unchanged and continues with the next
line. -/
theorem claim_C7_oversize (cap : Nat) :
    (∀ (st : ClientSt) (line : Txt) (r : Option RequestId),
      requestParse line = .ok r → utf8Len line > cap →
      clientStep cap st line = .error msgTooBig) ∧
    (∀ (st : ServerSt) (line : Txt) (j idv : Json),
      parseJson line = some j → parse_request j = .ok (some idv) →
      utf8Len (echoText idv line) > cap →
      serverStep cap st line
        = .ok ⟨st.buf, st.evs ++ [.reply (errReplyJson (-32603) msgOversize)],
            st.oracle⟩) := by
  constructor
  · intro st line r hreq hbig
    simp [clientStep, hreq, hbig]
  · intro st line j idv hp hv hbig
    refine serverStep_reply ?_
    rw [serverLineOut_with_id hp hv, if_pos hbig]

/-- Witness for claim C7 with capacity ten, which both scenario lines
exceed. -/
theorem claim_C7_witness :
    clientStep 10 ⟨[], [], 0⟩ lineA = .error msgTooBig ∧
      serverStep 10 ⟨[], [], []⟩ lineB
        = .ok ⟨[], [SEv.reply (errReplyJson (-32603) msgOversize)], []⟩ :=
  ⟨(claim_C7_oversize 10).1 ⟨[], [], 0⟩ lineA (some (.number 1)) (by rfl) (by decide),
    (claim_C7_oversize 10).2 ⟨[], [], []⟩ lineB jsonB idB (by rfl) (by rfl) (by decide)⟩

/-- Counterexample to claim C8 as stated: a short write while flushing
a reply datagram on the echo success path is not dropped silently; at
this concrete input the run terminates with an error instead of
continuing. -/
theorem claim_C8_counterexample :
    serverDatagram 65507 lineB [0] = .error msgShortSend ∧
      ∀ evs : List SEv, serverDatagram 65507 lineB [0] ≠ .ok evs := by
  constructor
  · rfl
  · intro evs h
    rw [show serverDatagram 65507 lineB [0] = .error msgShortSend from rfl] at h
    exact Except.noConfusion h

/-- Claim C8 as amended: on the echo success path the server checks the
byte count reported by a send; a short write on an intermediate flush
or on the final flush is fatal, terminating the run with an error (it
is the best-effort error replies, not the echo path, that swallow send
failures). -/
theorem claim_C8_short_write_fatal :
    (∀ st : ServerSt, st.buf ≠ [] →
      (takeSent st.oracle (utf8Len st.buf)).1 ≠ utf8Len st.buf →
      serverFinish st = .error msgShortSend) ∧
    (∀ (cap : Nat) (st : ServerSt) (line t : Txt),
      serverLineOut cap line = .entry t →
      st.buf ≠ [] ∧ utf8Len st.buf + 1 + utf8Len t > cap →
      (takeSent st.oracle (utf8Len st.buf)).1 ≠ utf8Len st.buf →
      serverStep cap st line = .error msgShortSend) := by
  constructor
  · intro st hb hs
    unfold serverFinish
    rw [if_neg hb, if_pos hs]
  · intro cap st line t ha hc hs
    exact serverStep_entry_short ha hc hs

/-- Witness for claim C8 as amended, at a one-byte buffer with a send
oracle reporting zero bytes written. -/
theorem claim_C8_witness :
    serverFinish ⟨['a'], [], [0]⟩ = .error msgShortSend :=
  claim_C8_short_write_fatal.1 ⟨['a'], [], [0]⟩ (by decide) (by decide)

/-- Counterexample to claim C9 as stated: a decoded datagram holding a
single newline byte yields one empty line, and the server does attempt
to parse it and does send a parse-error reply, instead of skipping it
silently. -/
theorem claim_C9_counterexample :
    serverDatagram 65507 [nlChar] []
        = .ok [SEv.reply (errReplyJson (-32700) msgParse)] ∧
      serverDatagram 65507 [nlChar] [] ≠ .ok [] := by
  constructor
  · rfl
  · intro h
    rw [show serverDatagram 65507 [nlChar] []
        = .ok [SEv.reply (errReplyJson (-32700) msgParse)] from rfl] at h
    injection h with h2
    exact List.noConfusion h2

/-- Claim C9 as amended: the server splits with Rust lines semantics,
so only the final empty segment produced by one trailing newline
yields no line; an interior or leading empty line is processed like any
other line, its JSON parse fails, and one error reply with code -32700
is appended while the buffer is unchanged and processing continues. -/
theorem claim_C9_empty_lines :
    (∀ (cap : Nat) (st : ServerSt),
      serverStep cap st []
        = .ok ⟨st.buf, st.evs ++ [.reply (errReplyJson (-32700) msgParse)], st.oracle⟩) ∧
    (∀ t : Txt, rustLines (t ++ [nlChar]) = (splitNl t).map stripCr) := by
  constructor
  · intro cap st
    exact serverStep_reply (serverLineOut_parse_fail rfl)
  · exact rustLines_append_nl

/-- Counterexample to claim C10 as stated: an integer id just above the
i64 range is accepted by the utils validator and by the echo server
validator but rejected by the client validator, whose i64 conversion
overflows. -/
theorem claim_C10_counterexample :
    (validate_json_rpc_request bigIdObj).isOk = true ∧
      (parse_request bigIdObj).isOk = true ∧
      (validate_request_and_parse_id bigIdObj).isOk = false :=
  ⟨rfl, rfl, rfl⟩

/-- Claim C10 as amended: the utils validator and the echo server
validator are equal as functions; and on every value whose integer id
members all fit in an i64, the client validator agrees with them on
success versus failure and, on success, on whether an id was
present. -/
theorem claim_C10_validators_agree :
    (∀ v : Json, parse_request v = validate_json_rpc_request v) ∧
    (∀ v : Json, jsonIdsInRange v = true →
      ((validate_json_rpc_request v).isOk = (validate_request_and_parse_id v).isOk) ∧
      ∀ (rU : Option Json) (rC : Option RequestId),
        validate_json_rpc_request v = .ok rU →
        validate_request_and_parse_id v = .ok rC → rU.isSome = rC.isSome) :=
  ⟨parse_request_eq_validate, validate_client_agree⟩

/-- Witness for claim C10 as amended at the scenario B request value. -/
theorem claim_C10_witness :
    (validate_json_rpc_request jsonB).isOk = (validate_request_and_parse_id jsonB).isOk :=
  (claim_C10_validators_agree.2 jsonB (by rfl)).1

end Jlou
